import Mathlib

/-!
Verification development for the lexical sense consolidation engine of
`src/dictionaries/generate_dictionaries.py`.

The Python pipeline (function `generate_dictionary` and its helpers) is
shallowly embedded below.  Strings are modelled through their character
lists so that every definition is executable by the kernel; Python's
`dict` objects are modelled as insertion-ordered association lists, and
Python `set` objects whose iteration order is irrelevant to the produced
values are modelled as first-occurrence deduplicated lists.
-/

namespace ShawSpell

/-! ## Character-list based string primitives

Python string operations (`lower`, `split`, `startswith`, `in`,
`capitalize`, one-character `replace`, lexicographic comparison) are
modelled on the character list of a `String`.  For code points these
agree with Python's code-point semantics (ASCII case mapping, as in the
data handled by the generator). -/

/-- Python `s.lower()` (ASCII case mapping). -/
def strLower (s : String) : String := String.mk (s.data.map Char.toLower)

/-- Python `s.startswith(p)`. -/
def strStarts (s p : String) : Bool := p.data.isPrefixOf s.data

/-- Python `sub in s` (substring containment). -/
def strHasSub (s sub : String) : Bool := s.data.tails.any fun t => sub.data.isPrefixOf t

/-- Python `key.split('_')[0]`: the part of the string before the first
underscore (the whole string when it has no underscore). -/
def keyHead (key : String) : String := String.mk (key.data.takeWhile fun c => c ≠ '_')

/-- Python `s.capitalize()`: first character upper-cased, the rest
lower-cased (ASCII case mapping). -/
def pyCapitalize (s : String) : String :=
  match s.data with
  | [] => ""
  | c :: rest => String.mk (c.toUpper :: rest.map Char.toLower)

/-- Python `''.join(l)`. -/
def strJoin (l : List String) : String := String.mk (l.flatMap String.data)

/-- Lexicographic (code-point) comparison on character lists; `lexLe a b`
is true when `a` is less than or equal to `b`, exactly as Python compares
strings. -/
def lexLe : List Char → List Char → Bool
  | [], _ => true
  | _ :: _, [] => false
  | a :: as, b :: bs =>
    if a.toNat < b.toNat then true
    else if b.toNat < a.toNat then false
    else lexLe as bs

/-- Python `a <= b` on strings. -/
def strLe (a b : String) : Bool := lexLe a.data b.data

/-- Python `a < b` on strings. -/
def strLt (a b : String) : Bool := strLe a b && !(decide (a = b))

/-! ## Small list toolkit (association lists, dedup, stable sort)

Python dictionaries are association lists looked up by first match;
Python's `sorted` is a stable sort, embedded here as a stable insertion
sort (any two stable sorts of the same list under the same total
preorder coincide). -/

/-- First-match association list lookup: Python `d.get(k)` / `d[k]`. -/
def alookup {α β : Type} [DecidableEq α] (l : List (α × β)) (a : α) : Option β :=
  match l with
  | [] => none
  | (k, v) :: rest => if k = a then some v else alookup rest a

/-- Membership-conditional append, building first-occurrence ordered
duplicate-free lists (models building up a Python `set`; iteration order
of the resulting values is never observable in the modelled code paths). -/
def insertNew {α : Type} [DecidableEq α] (xs : List α) (a : α) : List α :=
  if a ∈ xs then xs else xs ++ [a]

/-- First-occurrence deduplication of a list. -/
def dedupL {α : Type} [DecidableEq α] (l : List α) : List α := l.foldl insertNew []

/-- Stable insertion of `x` into `l`: `x` is placed before the first
element `b` with `le x b`. -/
def insertS {α : Type} (le : α → α → Bool) (x : α) : List α → List α
  | [] => [x]
  | b :: l => if le x b then x :: b :: l else b :: insertS le x l

/-- Stable insertion sort by the boolean comparator `le`; models Python's
`sorted` (which is stable) under a total preorder. -/
def isort {α : Type} (le : α → α → Bool) : List α → List α
  | [] => []
  | x :: xs => insertS le x (isort le xs)

/-! ## Data model

`LexiconRecord`s arrive as the `entries` of one readlex key; the
comprehensive WordNet cache supplies sense metadata. -/

/-- One raw lexicon record (an element of `readlex_data[key]['entries']`):
target-script spelling `Shaw`, source-script spelling `Latn`, CLAWS POS
tag, IPA transcription, pronunciation-variant code. -/
structure RawEntry where
  shaw : String
  latn : String
  pos : String
  ipa : String
  var : String
deriving DecidableEq

/-- The value stored for one readlex key after
`process_readlex_with_lemmas`: derived lemma (`lemm`), canonical Shavian
spelling, and the member records. -/
structure ReadlexData where
  lemm : String
  canonical_shavian : String
  entries : List RawEntry
deriving DecidableEq

/-- One sense record of the WordNet cache (`sense_variants` element):
optional synset identifier, dialect-to-spellings mapping, definitions. -/
structure Sense where
  synset : Option String
  variants : List (String × List String)
  definitions : List String
deriving DecidableEq

/-- The cache data for one part of speech (`pos_entries` value). -/
structure PosData where
  sense_variants : List Sense
deriving DecidableEq

/-- One entry of the comprehensive WordNet cache, keyed by a lowercase
lemma. -/
structure CacheEntry where
  pos_entries : List (String × PosData)
  dialect : Option String
deriving DecidableEq

/-- The comprehensive WordNet cache: lowercase lemma to entry. -/
abbrev WordnetCache := List (String × CacheEntry)

/-- One definition dict (`definition`, `pos`, `examples` keys). -/
structure DefEntry where
  defn : String
  pos : String
  examples : List String
deriving DecidableEq

/-- One transliteration-cache record (value of the Shavian definitions
cache, keyed by `"lemma|synset"`). -/
structure TransDef where
  transliterated_definition : String
  pos : String
  transliterated_pos : String
  transliterated_examples : List String
deriving DecidableEq

/-! ## Helper functions of the generator (translated from source) -/

/-- `is_proper_noun`: a CLAWS tag marks a proper noun when it contains
`NP0`. -/
def is_proper_noun (pos_code : String) : Bool :=
  if pos_code = "" then false
  else strHasSub pos_code "NP0"

/-- `normalize_readlex_ipa`: replace every `R` by `(r)`. -/
def normalize_readlex_ipa (ipa : String) : String :=
  if ipa = "" then ipa
  else String.mk (ipa.data.flatMap fun c => if c = 'R' then "(r)".data else [c])

/-- `detect_spelling_variant_with_cache`: the `dialect` field of the
cache entry for the lowercased word, when present. -/
def detect_spelling_variant_with_cache (word : String) (cache : WordnetCache) : Option String :=
  if cache.isEmpty then none
  else match alookup cache (strLower word) with
    | none => none
    | some e => e.dialect

/-- `get_synsets_from_cache`: the truthy synset identifiers of the
`sense_variants` stored under `pos_filter` for the lowercased lemma. -/
def get_synsets_from_cache (lemm pos_filter : String) (cache : WordnetCache) : List String :=
  if cache.isEmpty then []
  else match alookup cache (strLower lemm) with
    | none => []
    | some entry =>
      let pos_data := (alookup entry.pos_entries pos_filter).getD ⟨[]⟩
      pos_data.sense_variants.filterMap fun s =>
        match s.synset with
        | some sid => if sid = "" then none else some sid
        | none => none

/-- `is_foreign_dialect_lemma`: scan every sense of the lowercased
lemma's cache entry whose synset equals `synset_id`; the lemma is foreign
when some such sense has the home dialect among its `variants` keys and
the lowercased lemma is not among that dialect's spellings. -/
def is_foreign_dialect_lemma (lemm synset_id home_dialect : String) (cache : WordnetCache) : Bool :=
  if cache.isEmpty || synset_id = "" then false
  else match alookup cache (strLower lemm) with
    | none => false
    | some entry =>
      entry.pos_entries.any fun pd =>
        pd.2.sense_variants.any fun s =>
          decide (s.synset = some synset_id) &&
            (match alookup s.variants home_dialect with
             | some home_variants => !(home_variants.contains (strLower lemm))
             | none => false)

/-- `get_definitions_from_cache`: every definition of every sense of the
lowercased lemma, tagged with the POS it is stored under. -/
def get_definitions_from_cache (lemm : String) (cache : WordnetCache) : List DefEntry :=
  if cache.isEmpty then []
  else match alookup cache (strLower lemm) with
    | none => []
    | some entry =>
      entry.pos_entries.flatMap fun pp =>
        pp.2.sense_variants.flatMap fun s =>
          s.definitions.map fun d => ⟨d, pp.1, []⟩

/-- `add_namer_dot_if_proper_noun`: prefix a middle dot to Shavian text
of proper nouns, unless already present. -/
def add_namer_dot_if_proper_noun (text pos_code : String) : String :=
  if is_proper_noun pos_code then
    if !(strStarts text "·") then "·" ++ text else text
  else text

/-! ## Dictionary configurations -/

/-- The three dictionary types built by `generate_dictionary`. -/
inductive DictType where
  | shawEng
  | engShaw
  | shawShaw
deriving DecidableEq

/-- The index axis of a configuration (`config['index_key']`). -/
inductive IndexKey where
  | shaw
  | latn
deriving DecidableEq

/-- `config['index_key']` per dictionary type. -/
def DictType.index_key : DictType → IndexKey
  | .shawEng => .shaw
  | .engShaw => .latn
  | .shawShaw => .shaw

/-- `config['use_shavian_cache']` per dictionary type. -/
def DictType.use_shavian_cache : DictType → Bool
  | .shawEng => false
  | .engShaw => true
  | .shawShaw => true

/-- `preferred_var = 'RRP' if dialect == 'gb' else 'GenAm'`. -/
def preferred_var_of (dialect : String) : String :=
  if dialect = "gb" then "RRP" else "GenAm"

/-- `home_dialect = 'GB' if preferred_var == 'RRP' else 'US'`. -/
def home_dialect_of (preferred_var : String) : String :=
  if preferred_var = "RRP" then "GB" else "US"

/-! ## Per-key entry construction (`readlex_entries`) -/

/-- CLAWS tag to coarse single-letter POS, as classified in the signature
pass (source lines 862-877): verbs, non-proper nouns, adjectives,
adverbs, prepositions, interjections, conjunctions. -/
def coarse_pos (pos_code : String) : Option String :=
  if strStarts pos_code "V" then some "v"
  else if strStarts pos_code "N" && !is_proper_noun pos_code then some "n"
  else if strStarts pos_code "AJ" then some "a"
  else if strStarts pos_code "AV" then some "r"
  else if strStarts pos_code "PRP" then some "p"
  else if strStarts pos_code "ITJ" then some "i"
  else if strStarts pos_code "CJ" then some "c"
  else none

/-- CLAWS tag to coarse WordNet POS, as classified when collecting
definitions (source lines 739-749 and 781-792): only verbs, non-proper
nouns, adjectives and adverbs. -/
def coarse_pos_wn (pos_code : String) : Option String :=
  if strStarts pos_code "V" then some "v"
  else if strStarts pos_code "N" && !is_proper_noun pos_code then some "n"
  else if strStarts pos_code "AJ" then some "a"
  else if strStarts pos_code "AV" then some "r"
  else none

/-- The `key_pos_set` of the definitions pass, over the raw entries of
one readlex key. -/
def key_pos_set (entries : List RawEntry) : List String :=
  dedupL (entries.filterMap fun e => coarse_pos_wn e.pos)

/-- One processed form dict (source lines 823-832). -/
structure Form where
  shaw : String
  latn : String
  pos : String
  ipa : String
  var : String
  spelling_variant : Option String
  is_lemma : Bool
  is_preferred : Bool
deriving DecidableEq

/-- The stored value of `readlex_entries[key]` (source lines 836-840). -/
structure EntryData where
  forms : List Form
  definitions : List DefEntry
  canonical_shavian : String
deriving DecidableEq

/-- Build the `forms` list of one readlex key (source lines 807-833): a
form is the lemma form exactly when its Shavian equals the key's
canonical Shavian. -/
def build_forms (preferred_var : String) (cache : WordnetCache) (data : ReadlexData) : List Form :=
  data.entries.map fun e =>
    ⟨e.shaw, e.latn, e.pos, normalize_readlex_ipa e.ipa, e.var,
     detect_spelling_variant_with_cache e.latn cache,
     decide (e.shaw = data.canonical_shavian), decide (e.var = preferred_var)⟩

/-- The synsets consulted when collecting definitions (source lines
751-755): looked up for the key's stored lemma and the first sorted
WordNet POS of the key. -/
def defs_synsets (cache : WordnetCache) (data : ReadlexData) : List String :=
  if !cache.isEmpty && !(key_pos_set data.entries).isEmpty then
    get_synsets_from_cache data.lemm ((isort strLe (key_pos_set data.entries)).headD "") cache
  else []

/-- The filtered definitions of one readlex key (source lines 737-805).
With the Shavian cache (`eng-shaw`, `shaw-shaw`) definitions are looked
up per synset under the key `"lemma|synset"`, using the first sorted
WordNet POS of the key; those configurations use the transliterated POS
field.  Without it (`shaw-eng`) lemma-level definitions from the WordNet
cache (falling back to the passed definitions mapping) are filtered by
the key's WordNet POS set. -/
def defs_for_key (dt : DictType) (cache : WordnetCache)
    (translit_defs : List (String × TransDef)) (wn_defs : List (String × List DefEntry))
    (data : ReadlexData) : List DefEntry :=
  if dt.use_shavian_cache then
    (defs_synsets cache data).filterMap fun sid =>
      (alookup translit_defs (data.lemm ++ "|" ++ sid)).map fun td =>
        ⟨td.transliterated_definition, td.transliterated_pos, td.transliterated_examples⟩
  else
    let ld0 := if cache.isEmpty then [] else get_definitions_from_cache data.lemm cache
    let ld := if ld0.isEmpty then (alookup wn_defs data.lemm).getD [] else ld0
    ld.filter fun d => (key_pos_set data.entries).contains d.pos

/-- `readlex_entries[key]` for one key. -/
def build_entry_data (dt : DictType) (preferred_var : String) (cache : WordnetCache)
    (translit_defs : List (String × TransDef)) (wn_defs : List (String × List DefEntry))
    (data : ReadlexData) : EntryData :=
  ⟨build_forms preferred_var cache data,
   defs_for_key dt cache translit_defs wn_defs data,
   data.canonical_shavian⟩

/-- The full `readlex_entries` mapping, in input order. -/
def build_readlex_entries (dt : DictType) (preferred_var : String) (cache : WordnetCache)
    (translit_defs : List (String × TransDef)) (wn_defs : List (String × List DefEntry))
    (readlex_data : List (String × ReadlexData)) : List (String × EntryData) :=
  readlex_data.map fun kd => (kd.1, build_entry_data dt preferred_var cache translit_defs wn_defs kd.2)

/-! ## Signature assignment (source lines 855-920) -/

/-- A grouping signature: `('foreign', lemma, synset)`,
`('synset', lemma, synset)` or `('readlex', key)`. -/
inductive Sig where
  | foreign (lemm synset : String)
  | synset (lemm synset : String)
  | readlex (key : String)
deriving DecidableEq

/-- Whether a signature is the foreign-dialect variant. -/
def Sig.isForeign : Sig → Bool
  | .foreign _ _ => true
  | _ => false

/-- The sense identifier of a foreign signature, when it is one. -/
def Sig.foreignSid : Sig → Option String
  | .foreign _ sid => some sid
  | _ => none

/-- Whether a signature is `('synset', _, sid)`. -/
def Sig.isSynsetWith (sid : String) : Sig → Bool
  | .synset _ s2 => decide (s2 = sid)
  | _ => false

/-- The sorted coarse POS tuple of an entry's forms
(`pos_tuple = tuple(sorted(pos_set))`, source line 879). -/
def entry_pos_tuple (forms : List Form) : List String :=
  isort strLe (dedupL (forms.filterMap fun f => coarse_pos f.pos))

/-- The synsets consulted by the signature pass for one key: looked up
for the key's prefix before the first underscore (the dict stored in
`readlex_entries` has no `lemma` field, so `data.get('lemma',
key.split('_')[0])` always falls back) and the first POS of the sorted
tuple. -/
def sig_synsets (cache : WordnetCache) (key : String) (d : EntryData) : List String :=
  let pos_tuple := entry_pos_tuple d.forms
  if !cache.isEmpty && !pos_tuple.isEmpty then
    get_synsets_from_cache (keyHead key) (pos_tuple.headD "") cache
  else []

/-- `entry_signatures[key]` (source lines 890-916). -/
def sig_of_key (home_dialect : String) (cache : WordnetCache) (key : String) (d : EntryData) : Sig :=
  match sig_synsets cache key d with
  | [] => .readlex key
  | sid :: _ =>
    if is_foreign_dialect_lemma (keyHead key) sid home_dialect cache then .foreign (keyHead key) sid
    else .synset (keyHead key) sid

/-! ## The merge pass (source lines 922-978) -/

/-- One readlex key together with its entry data and signature, as
consumed by the merge pass. -/
structure Trip where
  key : String
  data : EntryData
  sig : Sig
deriving DecidableEq

/-- The keyed entries with their signatures, in input order. -/
def build_trips (home_dialect : String) (cache : WordnetCache)
    (entries : List (String × EntryData)) : List Trip :=
  entries.map fun kd => ⟨kd.1, kd.2, sig_of_key home_dialect cache kd.1 kd.2⟩

/-- The mutable state of the merge pass: `merged_entries`, `variant_map`,
`signature_to_key` and `foreign_to_home`. -/
structure MergeState where
  merged : List (String × EntryData)
  variant_map : List (String × String)
  signature_to_key : List (Sig × String)
  foreign_to_home : List (String × String)
deriving DecidableEq

/-- The empty initial merge state. -/
def initState : MergeState := ⟨[], [], [], []⟩

/-- `for other_key, other_sig in entry_signatures.items(): ...` — the
first signature of the form `('synset', _, sid)` in assignment order. -/
def find_home_sig (sigs : List (String × Sig)) (sid : String) : Option Sig :=
  (sigs.find? fun p => p.2.isSynsetWith sid).map (·.2)

/-- `merged_entries[existing_key]['forms'].extend(data['forms'])`:
extend the forms of the entry stored under `key` (keys are unique in the
modelled dictionary). -/
def appendFormsAt : List (String × EntryData) → String → List Form → List (String × EntryData)
  | [], _, _ => []
  | (k, d) :: rest, key, fs =>
    if k = key then (k, ⟨d.forms ++ fs, d.definitions, d.canonical_shavian⟩) :: rest
    else (k, d) :: appendFormsAt rest key fs

/-- The merge-loop handling of one foreign-signed key (source lines
940-959): find the first `('synset', _, sid)` signature; when the entry
canonical for it has already been created, record the cross-reference,
otherwise drop the key. -/
def foreignStep (sigs : List (String × Sig)) (st : MergeState) (key sid : String) : MergeState :=
  match find_home_sig sigs sid with
  | some hs =>
    match alookup st.signature_to_key hs with
    | some home_key =>
      { st with foreign_to_home := st.foreign_to_home ++ [(key, home_key)] }
    | none => st
  | none => st

/-- The merge-loop handling of one non-foreign key (source lines
961-978): extend the existing entry of a seen signature, or create a new
canonical entry. -/
def plainStep (st : MergeState) (t : Trip) : MergeState :=
  match alookup st.signature_to_key t.sig with
  | some existing_key =>
    { st with merged := appendFormsAt st.merged existing_key t.data.forms,
              variant_map := st.variant_map ++ [(t.key, existing_key)] }
  | none =>
    { st with merged := st.merged ++ [(t.key, t.data)],
              variant_map := st.variant_map ++ [(t.key, t.key)],
              signature_to_key := st.signature_to_key ++ [(t.sig, t.key)] }

/-- One iteration of the merge loop (source lines 932-978) on one keyed
entry. -/
def mergeStep (sigs : List (String × Sig)) (st : MergeState) (t : Trip) : MergeState :=
  match t.sig.foreignSid with
  | some sid => foreignStep sigs st t.key sid
  | none => plainStep st t

/-- The whole merge pass, in input order. -/
def mergeRun (sigs : List (String × Sig)) : MergeState → List Trip → MergeState
  | st, [] => st
  | st, t :: rest => mergeRun sigs (mergeStep sigs st t) rest

/-! ## Index projection (source lines 982-1009) and bucket ordering
(source lines 1028-1049) -/

/-- The bucket of an index term (empty when the term is absent). -/
def bucketOf (idx : List (String × List String)) (t : String) : List String :=
  (alookup idx t).getD []

/-- `if key not in index_to_entries[term]: index_to_entries[term].append(key)`
over a `defaultdict(list)`. -/
def indexAdd : List (String × List String) → String → String → List (String × List String)
  | [], term, key => [(term, [key])]
  | (t, ks) :: rest, term, key =>
    if t = term then (t, if ks.contains key then ks else ks ++ [key]) :: rest
    else (t, ks) :: indexAdd rest term key

/-- The index terms one merged entry produces: for the Shavian axis,
each distinct Shavian spelling of a lemma-flagged form; for the Latin
axis, the lowercased Latin spelling of the first lemma-flagged form,
when one exists. -/
def entryTerms (ik : IndexKey) (d : EntryData) : List String :=
  match ik with
  | .shaw => dedupL ((d.forms.filter (·.is_lemma)).map (·.shaw))
  | .latn =>
    match d.forms.filter (·.is_lemma) with
    | [] => []
    | f :: _ => [strLower f.latn]

/-- `index_to_entries` (source lines 984-1009). -/
def buildIndex (ik : IndexKey) (variant_map : List (String × String))
    (merged : List (String × EntryData)) : List (String × List String) :=
  merged.foldl (fun idx kd =>
    if alookup variant_map kd.1 = some kd.1 then
      (entryTerms ik kd.2).foldl (fun idx term => indexAdd idx term kd.1) idx
    else idx) []

/-- The index value a form contributes (`form['shaw']`, or the
lowercased `form['latn']`). -/
def form_index_val (ik : IndexKey) (f : Form) : String :=
  match ik with
  | .shaw => f.shaw
  | .latn => strLower f.latn

/-- The three-component sort key computed by `sort_entries`: the negated
direct-match flag, the lowercased first lemma spelling, the POS string
(`'zzz'` when the entry has no POS). -/
structure SortKey where
  indirect : Bool
  lemma_text : String
  pos_str : String
deriving DecidableEq

/-- Order on booleans with `false` before `true` (Python tuple order on
`not is_direct_match`). -/
def boolLe (a b : Bool) : Bool := !a || b

/-- Lexicographic comparison of sort keys, as Python compares the tuples
returned by `sort_entries`. -/
def sortKeyLE (a b : SortKey) : Bool :=
  if a.indirect = b.indirect then
    (if a.lemma_text = b.lemma_text then strLe a.pos_str b.pos_str
     else strLt a.lemma_text b.lemma_text)
  else boolLe a.indirect b.indirect

/-- `sort_entries(entry_key)` (source lines 1028-1047). -/
def sort_key_of (ik : IndexKey) (merged : List (String × EntryData))
    (entry_pos : List (String × List String)) (index_word entry_key : String) : SortKey :=
  let d := (alookup merged entry_key).getD ⟨[], [], ""⟩
  let is_direct := d.forms.any fun f => decide (form_index_val ik f = index_word)
  let lemma_text := ((d.forms.filter (·.is_lemma)).head?.map fun f => strLower f.latn).getD ""
  let pos := (alookup entry_pos entry_key).getD []
  let pos_str := if pos.isEmpty then "zzz" else strJoin (isort strLe pos)
  ⟨!is_direct, lemma_text, pos_str⟩

/-- `sorted(entry_keys, key=sort_entries)` for one index term. -/
def sort_entries_bucket (ik : IndexKey) (merged : List (String × EntryData))
    (entry_pos : List (String × List String)) (index_word : String)
    (bucket : List String) : List String :=
  isort (fun k1 k2 =>
      sortKeyLE (sort_key_of ik merged entry_pos index_word k1)
        (sort_key_of ik merged entry_pos index_word k2)) bucket

/-- The projected index with each bucket in its written order. -/
def project_index (ik : IndexKey) (variant_map : List (String × String))
    (merged : List (String × EntryData))
    (entry_pos : List (String × List String)) : List (String × List String) :=
  (buildIndex ik variant_map merged).map fun p =>
    (p.1, sort_entries_bucket ik merged entry_pos p.1 p.2)

/-! ## Cross-reference index values of a written entry
(source lines 1066-1102) -/

/-- The index values one form contributes to `lemma_forms_indices`,
including the proper-noun variants. -/
def index_values_of_form (ik : IndexKey) (f : Form) : List String :=
  let fi := form_index_val ik f
  match ik with
  | .shaw => if is_proper_noun f.pos then [fi, add_namer_dot_if_proper_noun fi f.pos] else [fi]
  | .latn => if is_proper_noun f.pos then [fi, pyCapitalize fi] else [fi]

/-- `lemma_forms_indices` for one written entry: the index values of its
own member forms plus, for each foreign key cross-referenced to this
entry, the index values of the foreign key's forms; a set, written in
sorted order. -/
def entry_index_values (ik : IndexKey) (readlex_entries : List (String × EntryData))
    (foreign_to_home : List (String × String)) (entry_key : String) (d : EntryData) : List String :=
  let own := d.forms.flatMap (index_values_of_form ik)
  let fore := foreign_to_home.flatMap fun fh =>
    if fh.2 = entry_key then
      match alookup readlex_entries fh.1 with
      | some fd => fd.forms.flatMap (index_values_of_form ik)
      | none => []
    else []
  isort strLe (dedupL (own ++ fore))

/-! ## The whole build -/

/-- `entry_pos` (source line 880): the POS tuple stored per original
key. -/
def build_entry_pos (entries : List (String × EntryData)) : List (String × List String) :=
  entries.map fun kd => (kd.1, entry_pos_tuple kd.2.forms)

/-- Everything `generate_dictionary` computes before serialisation. -/
structure BuildResult where
  readlex_entries : List (String × EntryData)
  entry_pos : List (String × List String)
  trips : List Trip
  sigs : List (String × Sig)
  merged : List (String × EntryData)
  variant_map : List (String × String)
  signature_to_key : List (Sig × String)
  foreign_to_home : List (String × String)
  index : List (String × List String)
deriving DecidableEq

/-- Stage one: the `readlex_entries` of one build. -/
def pipeline_entries (dt : DictType) (dialect : String) (cache : WordnetCache)
    (translit_defs : List (String × TransDef)) (wn_defs : List (String × List DefEntry))
    (readlex_data : List (String × ReadlexData)) : List (String × EntryData) :=
  build_readlex_entries dt (preferred_var_of dialect) cache translit_defs wn_defs readlex_data

/-- Stage two: the keyed entries with signatures of one build. -/
def pipeline_trips (dt : DictType) (dialect : String) (cache : WordnetCache)
    (translit_defs : List (String × TransDef)) (wn_defs : List (String × List DefEntry))
    (readlex_data : List (String × ReadlexData)) : List Trip :=
  build_trips (home_dialect_of (preferred_var_of dialect)) cache
    (pipeline_entries dt dialect cache translit_defs wn_defs readlex_data)

/-- The `entry_signatures` mapping of one build. -/
def pipeline_sigs (dt : DictType) (dialect : String) (cache : WordnetCache)
    (translit_defs : List (String × TransDef)) (wn_defs : List (String × List DefEntry))
    (readlex_data : List (String × ReadlexData)) : List (String × Sig) :=
  (pipeline_trips dt dialect cache translit_defs wn_defs readlex_data).map fun t => (t.key, t.sig)

/-- Stage three: the state after the merge pass of one build. -/
def pipeline_state (dt : DictType) (dialect : String) (cache : WordnetCache)
    (translit_defs : List (String × TransDef)) (wn_defs : List (String × List DefEntry))
    (readlex_data : List (String × ReadlexData)) : MergeState :=
  mergeRun (pipeline_sigs dt dialect cache translit_defs wn_defs readlex_data) initState
    (pipeline_trips dt dialect cache translit_defs wn_defs readlex_data)

/-- The consolidation engine of `generate_dictionary`: build per-key
entries, assign signatures, merge by signature in input order, project
the lookup index. -/
def generate_dictionary (dt : DictType) (dialect : String) (cache : WordnetCache)
    (translit_defs : List (String × TransDef)) (wn_defs : List (String × List DefEntry))
    (readlex_data : List (String × ReadlexData)) : BuildResult :=
  let res := pipeline_entries dt dialect cache translit_defs wn_defs readlex_data
  let trips := pipeline_trips dt dialect cache translit_defs wn_defs readlex_data
  let st := pipeline_state dt dialect cache translit_defs wn_defs readlex_data
  let ep := build_entry_pos res
  ⟨res, ep, trips, pipeline_sigs dt dialect cache translit_defs wn_defs readlex_data,
   st.merged, st.variant_map, st.signature_to_key, st.foreign_to_home,
   project_index dt.index_key st.variant_map st.merged ep⟩

/-! ## Order facts about the lexicographic comparators -/

theorem lexLe_refl (a : List Char) : lexLe a a = true := by
  induction a with
  | nil => rfl
  | cons c t ih => simp [lexLe, ih]

theorem lexLe_total (a b : List Char) : lexLe a b = true ∨ lexLe b a = true := by
  induction a generalizing b with
  | nil => left; rfl
  | cons c t ih =>
    cases b with
    | nil => right; rfl
    | cons d u =>
      rcases Nat.lt_trichotomy c.toNat d.toNat with h | h | h
      · left; simp [lexLe, h]
      · rcases ih u with h2 | h2
        · left; simp [lexLe, h, h2]
        · right; simp [lexLe, h.symm, h2]
      · right; simp [lexLe, h]

theorem lexLe_trans {a b c : List Char} (h1 : lexLe a b = true) (h2 : lexLe b c = true) :
    lexLe a c = true := by
  induction a generalizing b c with
  | nil => rfl
  | cons x t ih =>
    cases b with
    | nil => simp [lexLe] at h1
    | cons y u =>
      cases c with
      | nil => simp [lexLe] at h2
      | cons z v =>
        simp only [lexLe] at h1 h2 ⊢
        by_cases hxy : x.toNat < y.toNat
        · by_cases hyz : y.toNat < z.toNat
          · simp [show x.toNat < z.toNat by omega]
          · by_cases hzy : z.toNat < y.toNat
            · simp [hyz, hzy] at h2
            · simp [show x.toNat < z.toNat by omega]
        · by_cases hyx : y.toNat < x.toNat
          · simp [hxy, hyx] at h1
          · have hn : x.toNat = y.toNat := by omega
            have hxy2 : x = y := Char.ext (UInt32.toNat.inj hn)
            subst hxy2
            rw [if_neg hxy, if_neg hxy] at h1
            by_cases hxz : x.toNat < z.toNat
            · simp [hxz]
            · by_cases hzx : z.toNat < x.toNat
              · rw [if_neg hxz, if_pos hzx] at h2
                exact absurd h2 (by simp)
              · rw [if_neg hxz, if_neg hzx] at h2 ⊢
                exact ih h1 h2

theorem lexLe_antisymm {a b : List Char} (h1 : lexLe a b = true) (h2 : lexLe b a = true) :
    a = b := by
  induction a generalizing b with
  | nil =>
    cases b with
    | nil => rfl
    | cons d u => simp [lexLe] at h2
  | cons c t ih =>
    cases b with
    | nil => simp [lexLe] at h1
    | cons d u =>
      simp only [lexLe] at h1 h2
      rcases Nat.lt_trichotomy c.toNat d.toNat with h | h | h
      · simp [h, Nat.lt_asymm h] at h2
      · have hc : c = d := Char.ext (UInt32.toNat.inj h)
        subst hc
        simp only [Nat.lt_irrefl, if_false] at h1 h2
        exact congrArg (c :: ·) (ih h1 h2)
      · simp [h, Nat.lt_asymm h] at h1

theorem strLe_refl (a : String) : strLe a a = true := lexLe_refl a.data

theorem strLe_total (a b : String) : strLe a b = true ∨ strLe b a = true :=
  lexLe_total a.data b.data

theorem strLe_trans {a b c : String} (h1 : strLe a b = true) (h2 : strLe b c = true) :
    strLe a c = true := lexLe_trans h1 h2

theorem strLe_antisymm {a b : String} (h1 : strLe a b = true) (h2 : strLe b a = true) :
    a = b := by
  have h3 := lexLe_antisymm h1 h2
  cases a
  cases b
  exact congrArg String.mk h3

theorem strLt_iff {a b : String} : strLt a b = true ↔ strLe a b = true ∧ a ≠ b := by
  simp [strLt, Bool.and_eq_true]

theorem strLt_trans {a b c : String} (h1 : strLt a b = true) (h2 : strLt b c = true) :
    strLt a c = true := by
  rcases strLt_iff.mp h1 with ⟨hab, hne1⟩
  rcases strLt_iff.mp h2 with ⟨hbc, hne2⟩
  refine strLt_iff.mpr ⟨strLe_trans hab hbc, ?_⟩
  rintro rfl
  exact hne1 (strLe_antisymm hab hbc)

theorem strLt_asymm {a b : String} (h1 : strLt a b = true) : strLt b a = false := by
  rcases strLt_iff.mp h1 with ⟨hab, hne⟩
  by_contra h
  have h2 : strLt b a = true := by revert h; cases strLt b a <;> simp
  rcases strLt_iff.mp h2 with ⟨hba, _⟩
  exact hne (strLe_antisymm hab hba)

theorem strLt_of_ne_of_not_lt {a b : String} (hne : a ≠ b) (h : strLt b a = false) :
    strLt a b = true := by
  rcases strLe_total a b with hle | hle
  · exact strLt_iff.mpr ⟨hle, hne⟩
  · by_contra hc
    have : strLt b a = true := strLt_iff.mpr ⟨hle, fun he => hne he.symm⟩
    rw [this] at h; exact Bool.noConfusion h

/-! ## Association list and deduplication lemmas -/

theorem alookup_append {α β : Type} [DecidableEq α] (l1 l2 : List (α × β)) (a : α) :
    alookup (l1 ++ l2) a = (alookup l1 a).or (alookup l2 a) := by
  induction l1 with
  | nil => simp [alookup]
  | cons p t ih =>
    by_cases h : p.1 = a <;> simp [alookup, h, ih]

theorem alookup_mem {α β : Type} [DecidableEq α] {l : List (α × β)} {a : α} {b : β}
    (h : alookup l a = some b) : (a, b) ∈ l := by
  induction l with
  | nil => simp [alookup] at h
  | cons p t ih =>
    obtain ⟨k, v⟩ := p
    by_cases hp : k = a
    · subst hp
      simp [alookup] at h
      subst h
      exact List.mem_cons_self _ _
    · simp only [alookup, if_neg hp] at h
      exact List.mem_cons_of_mem _ (ih h)

theorem alookup_eq_none {α β : Type} [DecidableEq α] {l : List (α × β)} {a : α} :
    alookup l a = none ↔ a ∉ l.map Prod.fst := by
  induction l with
  | nil => simp [alookup]
  | cons p t ih =>
    obtain ⟨k, v⟩ := p
    by_cases hp : k = a
    · subst hp
      simp [alookup]
    · simp only [alookup, if_neg hp, ih, List.map_cons, List.mem_cons, not_or]
      constructor
      · intro h
        exact ⟨fun he => hp he.symm, h⟩
      · intro h
        exact h.2

theorem alookup_of_mem_unique {α β : Type} [DecidableEq α] {l : List (α × β)} {a : α} {b : β}
    (hmem : (a, b) ∈ l) (huniq : ∀ p ∈ l, p.1 = a → p = (a, b)) :
    alookup l a = some b := by
  induction l with
  | nil => simp at hmem
  | cons p t ih =>
    obtain ⟨k, v⟩ := p
    by_cases hp : k = a
    · have he := huniq (k, v) (List.mem_cons_self _ _) hp
      rw [Prod.mk.injEq] at he
      simp [alookup, hp, he.2]
    · simp only [alookup, if_neg hp]
      rcases List.mem_cons.mp hmem with he | hm
      · exact absurd (congrArg Prod.fst he.symm) hp
      · exact ih hm (fun q hq => huniq q (List.mem_cons_of_mem _ hq))

theorem mem_insertNew {α : Type} [DecidableEq α] {acc : List α} {x a : α} :
    a ∈ insertNew acc x ↔ a ∈ acc ∨ a = x := by
  unfold insertNew
  by_cases hx : x ∈ acc
  · rw [if_pos hx]
    constructor
    · exact Or.inl
    · rintro (h | rfl)
      · exact h
      · exact hx
  · rw [if_neg hx]
    simp

theorem mem_foldl_insertNew {α : Type} [DecidableEq α] (l : List α) (acc : List α) (a : α) :
    a ∈ l.foldl insertNew acc ↔ a ∈ acc ∨ a ∈ l := by
  induction l generalizing acc with
  | nil => simp
  | cons x t ih =>
    simp only [List.foldl_cons, ih, mem_insertNew, List.mem_cons]
    tauto

theorem mem_dedupL {α : Type} [DecidableEq α] {l : List α} {a : α} :
    a ∈ dedupL l ↔ a ∈ l := by
  simp [dedupL, mem_foldl_insertNew]

theorem nodup_foldl_insertNew {α : Type} [DecidableEq α] (l : List α) (acc : List α)
    (h : acc.Nodup) : (l.foldl insertNew acc).Nodup := by
  induction l generalizing acc with
  | nil => exact h
  | cons x t ih =>
    simp only [List.foldl_cons]
    apply ih
    unfold insertNew
    by_cases hx : x ∈ acc
    · rw [if_pos hx]
      exact h
    · rw [if_neg hx]
      refine List.nodup_append.mpr ⟨h, List.nodup_singleton x, ?_⟩
      intro a ha hax
      rw [List.mem_singleton] at hax
      subst hax
      exact hx ha

theorem nodup_dedupL {α : Type} [DecidableEq α] (l : List α) : (dedupL l).Nodup :=
  nodup_foldl_insertNew l [] List.nodup_nil

/-! ## Stable insertion sort lemmas -/

theorem insertS_perm {α : Type} (le : α → α → Bool) (x : α) (l : List α) :
    (insertS le x l).Perm (x :: l) := by
  induction l with
  | nil => exact List.Perm.refl _
  | cons b t ih =>
    unfold insertS
    by_cases h : le x b = true
    · rw [if_pos h]
    · rw [if_neg h]
      exact (List.Perm.cons b ih).trans (List.Perm.swap x b t)

theorem isort_perm {α : Type} (le : α → α → Bool) (l : List α) :
    (isort le l).Perm l := by
  induction l with
  | nil => exact List.Perm.refl _
  | cons x t ih =>
    exact ((insertS_perm le x (isort le t)).trans (List.Perm.cons x ih))

theorem mem_isort {α : Type} {le : α → α → Bool} {l : List α} {a : α} :
    a ∈ isort le l ↔ a ∈ l := (isort_perm le l).mem_iff

theorem pairwise_insertS {α : Type} {le : α → α → Bool}
    (htrans : ∀ a b c, le a b = true → le b c = true → le a c = true)
    (htot : ∀ a b, le a b = true ∨ le b a = true) {x : α} {l : List α}
    (h : l.Pairwise fun a b => le a b = true) :
    (insertS le x l).Pairwise fun a b => le a b = true := by
  induction l with
  | nil => simp [insertS]
  | cons b t ih =>
    rcases List.pairwise_cons.mp h with ⟨hb, ht⟩
    unfold insertS
    by_cases hxb : le x b = true
    · rw [if_pos hxb]
      refine List.pairwise_cons.mpr ⟨?_, h⟩
      intro c hc
      rcases List.mem_cons.mp hc with rfl | hc
      · exact hxb
      · exact htrans x b c hxb (hb c hc)
    · rw [if_neg hxb]
      refine List.pairwise_cons.mpr ⟨?_, ih ht⟩
      intro c hc
      have hc2 := (insertS_perm le x t).mem_iff.mp hc
      rcases List.mem_cons.mp hc2 with rfl | hc3
      · rcases htot b c with h1 | h1
        · exact h1
        · exact absurd h1 hxb
      · exact hb c hc3

theorem pairwise_isort {α : Type} {le : α → α → Bool}
    (htrans : ∀ a b c, le a b = true → le b c = true → le a c = true)
    (htot : ∀ a b, le a b = true ∨ le b a = true) (l : List α) :
    (isort le l).Pairwise fun a b => le a b = true := by
  induction l with
  | nil => simp [isort]
  | cons x t ih => exact pairwise_insertS htrans htot ih

theorem insertS_split {α : Type} (le : α → α → Bool) (x : α) (l : List α) :
    ∃ l1 l2, l = l1 ++ l2 ∧ insertS le x l = l1 ++ x :: l2 ∧
      ∀ b ∈ l1, le x b = false := by
  induction l with
  | nil => exact ⟨[], [], rfl, rfl, by simp⟩
  | cons b t ih =>
    unfold insertS
    by_cases h : le x b = true
    · exact ⟨[], b :: t, rfl, by simp [h], by simp⟩
    · rcases ih with ⟨l1, l2, he, hi, hb⟩
      refine ⟨b :: l1, l2, by simp [he], by simp [h, hi], ?_⟩
      intro c hc
      rcases List.mem_cons.mp hc with rfl | hc
      · simpa using h
      · exact hb c hc

theorem filter_insertS_pos {α : Type} {le : α → α → Bool} {p : α → Bool} {x : α} {l : List α}
    (hx : p x = true) (hcomp : ∀ b, p b = true → le x b = true) :
    (insertS le x l).filter p = x :: l.filter p := by
  rcases insertS_split le x l with ⟨l1, l2, he, hi, hb⟩
  have h1 : l1.filter p = [] := by
    rw [List.filter_eq_nil_iff]
    intro b hbm
    by_contra hpb
    have hpb2 : p b = true := by revert hpb; cases p b <;> simp
    have := hcomp b hpb2
    rw [hb b hbm] at this
    exact Bool.noConfusion this
  rw [hi, List.filter_append, h1, he, List.filter_append, h1]
  simp [hx]

theorem filter_insertS_neg {α : Type} {le : α → α → Bool} {p : α → Bool} {x : α} {l : List α}
    (hx : p x = false) :
    (insertS le x l).filter p = l.filter p := by
  rcases insertS_split le x l with ⟨l1, l2, he, hi, _⟩
  rw [hi, List.filter_append, he, List.filter_append]
  simp [hx]

theorem isort_filter_stable {α : Type} {le : α → α → Bool} {p : α → Bool}
    (hcomp : ∀ a b, p a = true → p b = true → le a b = true) (l : List α) :
    (isort le l).filter p = l.filter p := by
  induction l with
  | nil => rfl
  | cons x t ih =>
    unfold isort
    by_cases hx : p x = true
    · rw [filter_insertS_pos hx (fun b hb => hcomp x b hx hb), ih]
      simp [hx]
    · have hx2 : p x = false := by revert hx; cases p x <;> simp
      rw [filter_insertS_neg hx2, ih]
      simp [hx2]

theorem isort_head_min {α : Type} {le : α → α → Bool}
    (htrans : ∀ a b c, le a b = true → le b c = true → le a c = true)
    (htot : ∀ a b, le a b = true ∨ le b a = true) {l : List α} {m : α} {t : List α}
    (h : isort le l = m :: t) : ∀ a ∈ l, le m a = true := by
  intro a ha
  have hmem : a ∈ isort le l := mem_isort.mpr ha
  rw [h] at hmem
  rcases List.mem_cons.mp hmem with rfl | hmem2
  · rcases htot a a with h1 | h1 <;> exact h1
  · have hp := pairwise_isort htrans htot l
    rw [h] at hp
    exact (List.pairwise_cons.mp hp).1 a hmem2

/-! ## Signature and trip basics -/

theorem sig_isForeign_iff {s : Sig} : s.isForeign = true ↔ ∃ l sid, s = .foreign l sid := by
  cases s <;> simp [Sig.isForeign]

theorem foreignSid_eq_none {s : Sig} : s.foreignSid = none ↔ s.isForeign = false := by
  cases s <;> simp [Sig.foreignSid, Sig.isForeign]

theorem foreignSid_eq_some {s : Sig} {sid : String} (h : s.foreignSid = some sid) :
    ∃ l, s = .foreign l sid := by
  cases s with
  | foreign l s2 =>
    simp only [Sig.foreignSid, Option.some.injEq] at h
    exact ⟨l, by rw [h]⟩
  | synset l s2 => simp [Sig.foreignSid] at h
  | readlex k => simp [Sig.foreignSid] at h

theorem isSynsetWith_iff {s : Sig} {sid : String} :
    s.isSynsetWith sid = true ↔ ∃ l, s = .synset l sid := by
  cases s with
  | foreign l s2 => simp [Sig.isSynsetWith]
  | readlex k => simp [Sig.isSynsetWith]
  | synset l s2 =>
    simp only [Sig.isSynsetWith, decide_eq_true_eq, Sig.synset.injEq]
    constructor
    · intro h
      exact ⟨l, rfl, h⟩
    · rintro ⟨l2, _, h2⟩
      exact h2

/-! ## Non-operational characterizations of the merge pass -/

/-- A trip whose signature is not foreign. -/
def nonForeign (t : Trip) : Bool := !t.sig.isForeign

/-- The first trip in input order carrying signature `s`. -/
def firstWithSig (trips : List Trip) (s : Sig) : Option Trip :=
  trips.find? fun u => decide (u.sig = s)

/-- A non-foreign trip that is the first trip carrying its signature:
these are exactly the trips that found a new `ConsolidatedEntry`. -/
def isFirstOcc (trips : List Trip) (t : Trip) : Bool :=
  nonForeign t && decide (firstWithSig trips t.sig = some t)

/-- The forms of every trip carrying signature `s`, concatenated in
input order. -/
def groupForms (trips : List Trip) (s : Sig) : List Form :=
  (trips.filter fun u => decide (u.sig = s)).flatMap fun u => u.data.forms

/-- The consolidated entry canonical for trip `t`: forms of all trips
sharing its signature, definitions and canonical Shavian of `t` alone. -/
def groupedEntry (trips : List Trip) (t : Trip) : String × EntryData :=
  (t.key, ⟨groupForms trips t.sig, t.data.definitions, t.data.canonical_shavian⟩)

/-- Intended value of `merged_entries` after the pass. -/
def mergedSpec (trips : List Trip) : List (String × EntryData) :=
  (trips.filter (isFirstOcc trips)).map (groupedEntry trips)

/-- Intended value of `signature_to_key` after the pass. -/
def sig2keySpec (trips : List Trip) : List (Sig × String) :=
  (trips.filter (isFirstOcc trips)).map fun t => (t.sig, t.key)

/-- The canonical key chosen for a signature: the key of the first trip
carrying it. -/
def canonKeyOf (trips : List Trip) (s : Sig) : Option String :=
  (firstWithSig trips s).map Trip.key

/-- Intended value of `variant_map` after the pass. -/
def variantMapSpec (trips : List Trip) : List (String × String) :=
  (trips.filter nonForeign).map fun t => (t.key, (canonKeyOf trips t.sig).getD "")

theorem firstWithSig_sig {trips : List Trip} {s : Sig} {u : Trip}
    (h : firstWithSig trips s = some u) : u.sig = s := by
  have := List.find?_some h
  simpa using this

theorem firstWithSig_mem {trips : List Trip} {s : Sig} {u : Trip}
    (h : firstWithSig trips s = some u) : u ∈ trips :=
  List.mem_of_find?_eq_some h

theorem firstWithSig_isSome_of_mem {trips : List Trip} {u : Trip} (hu : u ∈ trips) :
    ∃ w, firstWithSig trips u.sig = some w := by
  have h : (trips.find? fun v => decide (v.sig = u.sig)).isSome := by
    rw [List.find?_isSome]
    exact ⟨u, hu, by simp⟩
  rcases Option.isSome_iff_exists.mp h with ⟨w, hw⟩
  exact ⟨w, hw⟩

theorem firstWithSig_eq_none {trips : List Trip} {s : Sig} :
    firstWithSig trips s = none ↔ ∀ u ∈ trips, u.sig ≠ s := by
  unfold firstWithSig
  rw [List.find?_eq_none]
  simp

theorem firstWithSig_append {l1 l2 : List Trip} {s : Sig} :
    firstWithSig (l1 ++ l2) s = (firstWithSig l1 s).or (firstWithSig l2 s) := by
  unfold firstWithSig
  exact List.find?_append

theorem firstWithSig_append_of_mem {done : List Trip} {t0 u : Trip} {s : Sig}
    (hu : u ∈ done) (hs : u.sig = s) :
    firstWithSig (done ++ [t0]) s = firstWithSig done s := by
  rcases firstWithSig_isSome_of_mem hu with ⟨w, hw⟩
  rw [hs] at hw
  rw [firstWithSig_append, hw]
  rfl

theorem isFirstOcc_append_of_mem {done : List Trip} {t0 u : Trip} (hu : u ∈ done) :
    isFirstOcc (done ++ [t0]) u = isFirstOcc done u := by
  unfold isFirstOcc
  rw [firstWithSig_append_of_mem hu rfl]

theorem isFirstOcc_of_filter_mem {done : List Trip} {u : Trip}
    (hu : u ∈ done.filter (isFirstOcc done)) : isFirstOcc done u = true :=
  (List.mem_filter.mp hu).2

/-! ## `appendFormsAt` facts -/

theorem appendFormsAt_keys (l : List (String × EntryData)) (k : String) (fs : List Form) :
    (appendFormsAt l k fs).map Prod.fst = l.map Prod.fst := by
  induction l with
  | nil => rfl
  | cons p t ih =>
    obtain ⟨k2, d⟩ := p
    unfold appendFormsAt
    by_cases h : k2 = k
    · rw [if_pos h]
      simp
    · rw [if_neg h]
      simpa using ih

theorem appendFormsAt_append_left {l1 : List (String × EntryData)} (l2 : List (String × EntryData))
    {k : String} (fs : List Form) (h : k ∉ l1.map Prod.fst) :
    appendFormsAt (l1 ++ l2) k fs = l1 ++ appendFormsAt l2 k fs := by
  induction l1 with
  | nil => rfl
  | cons p t ih =>
    obtain ⟨k2, d⟩ := p
    have hk2 : k2 ≠ k := by
      intro he
      exact h (by simp [he])
    have ht : k ∉ t.map Prod.fst := fun hm => h (List.mem_cons_of_mem _ hm)
    simp only [List.cons_append, appendFormsAt]
    rw [if_neg hk2]
    exact congrArg (List.cons (k2, d)) (ih ht)

theorem appendFormsAt_cons_self (l : List (String × EntryData)) (k : String)
    (d : EntryData) (fs : List Form) :
    appendFormsAt ((k, d) :: l) k fs =
      (k, ⟨d.forms ++ fs, d.definitions, d.canonical_shavian⟩) :: l := by
  unfold appendFormsAt
  rw [if_pos rfl]

theorem bandElim {a b : Bool} (h : (a && b) = true) : a = true ∧ b = true := by
  cases a <;> cases b <;> simp_all

/-! ## Snoc-step congruence lemmas -/

theorem groupForms_append_singleton (done : List Trip) (t0 : Trip) (s : Sig) :
    groupForms (done ++ [t0]) s =
      groupForms done s ++ if t0.sig = s then t0.data.forms else [] := by
  unfold groupForms
  rw [List.filter_append, List.flatMap_append]
  congr 1
  by_cases h : t0.sig = s
  · simp [List.filter, h]
  · simp [List.filter, h]

theorem filter_isFirstOcc_append (done : List Trip) (t0 : Trip) :
    (done ++ [t0]).filter (isFirstOcc (done ++ [t0])) =
      done.filter (isFirstOcc done) ++
        if isFirstOcc (done ++ [t0]) t0 then [t0] else [] := by
  rw [List.filter_append]
  congr 1
  · exact List.filter_congr fun u hu => isFirstOcc_append_of_mem hu
  · by_cases h : isFirstOcc (done ++ [t0]) t0 = true
    · simp [List.filter, h]
    · simp only [Bool.not_eq_true] at h
      simp [List.filter, h]

theorem canonKeyOf_append_of_mem {done : List Trip} {t0 u : Trip} (hu : u ∈ done) :
    canonKeyOf (done ++ [t0]) u.sig = canonKeyOf done u.sig :=
  congrArg (Option.map Trip.key) (firstWithSig_append_of_mem hu rfl)

theorem map_fst_sig2keySpec_not_mem {done : List Trip} {s : Sig}
    (hfw : firstWithSig done s = none) : alookup (sig2keySpec done) s = none := by
  rw [alookup_eq_none]
  intro hmem
  rcases List.mem_map.mp hmem with ⟨p, hp, hps⟩
  rcases List.mem_map.mp hp with ⟨u, hu, hup⟩
  have husig : u.sig = s := by
    rw [← hps, ← hup]
  have humem : u ∈ done := (List.mem_filter.mp hu).1
  exact (firstWithSig_eq_none.mp hfw u humem) husig

theorem alookup_sig2keySpec {done : List Trip} {s : Sig} (hs : s.isForeign = false) :
    alookup (sig2keySpec done) s = (firstWithSig done s).map Trip.key := by
  cases hfw : firstWithSig done s with
  | none =>
    rw [Option.map_none']
    exact map_fst_sig2keySpec_not_mem hfw
  | some u =>
    have husig : u.sig = s := firstWithSig_sig hfw
    have humem : u ∈ done := firstWithSig_mem hfw
    have hufo : isFirstOcc done u = true := by
      unfold isFirstOcc nonForeign
      rw [husig, hfw, hs]
      simp
    rw [Option.map_some']
    apply alookup_of_mem_unique
    · refine List.mem_map.mpr ⟨u, List.mem_filter.mpr ⟨humem, hufo⟩, ?_⟩
      rw [husig]
    · intro p hp hps
      rcases List.mem_map.mp hp with ⟨w, hw, hwp⟩
      have hwsig : w.sig = s := by
        rw [← hps, ← hwp]
      have hwfo := isFirstOcc_of_filter_mem hw
      unfold isFirstOcc at hwfo
      have h2 : firstWithSig done w.sig = some w := by
        have h3 := (bandElim hwfo).2
        exact of_decide_eq_true h3
      rw [hwsig, hfw] at h2
      have hwu : w = u := by
        injection h2.symm
      rw [← hwp, hwu, husig]

theorem mergeRun_append (sigs : List (String × Sig)) (st : MergeState) (l1 l2 : List Trip) :
    mergeRun sigs st (l1 ++ l2) = mergeRun sigs (mergeRun sigs st l1) l2 := by
  induction l1 generalizing st with
  | nil => rfl
  | cons t rest ih =>
    simp only [List.cons_append, mergeRun]
    exact ih _

theorem mergeStep_foreign {sigs : List (String × Sig)} {st : MergeState} {t : Trip}
    {sid : String} (h : t.sig.foreignSid = some sid) :
    mergeStep sigs st t = foreignStep sigs st t.key sid := by
  unfold mergeStep
  rw [h]

theorem mergeStep_plain {sigs : List (String × Sig)} {st : MergeState} {t : Trip}
    (h : t.sig.foreignSid = none) :
    mergeStep sigs st t = plainStep st t := by
  unfold mergeStep
  rw [h]

theorem foreignStep_fields (sigs : List (String × Sig)) (st : MergeState) (key sid : String) :
    (foreignStep sigs st key sid).signature_to_key = st.signature_to_key ∧
    (foreignStep sigs st key sid).variant_map = st.variant_map ∧
    (foreignStep sigs st key sid).merged = st.merged := by
  unfold foreignStep
  split
  · split
    · exact ⟨rfl, rfl, rfl⟩
    · exact ⟨rfl, rfl, rfl⟩
  · exact ⟨rfl, rfl, rfl⟩

theorem plainStep_seen {st : MergeState} {t : Trip} {k0 : String}
    (h : alookup st.signature_to_key t.sig = some k0) :
    plainStep st t = { st with merged := appendFormsAt st.merged k0 t.data.forms,
                               variant_map := st.variant_map ++ [(t.key, k0)] } := by
  unfold plainStep
  rw [h]

theorem plainStep_new {st : MergeState} {t : Trip}
    (h : alookup st.signature_to_key t.sig = none) :
    plainStep st t = { st with merged := st.merged ++ [(t.key, t.data)],
                               variant_map := st.variant_map ++ [(t.key, t.key)],
                               signature_to_key := st.signature_to_key ++ [(t.sig, t.key)] } := by
  unfold plainStep
  rw [h]

/-! ## The structural theorem of the merge pass -/

theorem mergeRun_struct (sigs : List (String × Sig)) (trips : List Trip)
    (hN : (trips.map Trip.key).Nodup) :
    (mergeRun sigs initState trips).signature_to_key = sig2keySpec trips ∧
    (mergeRun sigs initState trips).variant_map = variantMapSpec trips ∧
    (mergeRun sigs initState trips).merged = mergedSpec trips := by
  induction trips using List.reverseRecOn with
  | nil => exact ⟨rfl, rfl, rfl⟩
  | append_singleton done t0 ih =>
    have hNd : (done.map Trip.key).Nodup := by
      rw [List.map_append] at hN
      exact (List.nodup_append.mp hN).1
    have hKey : t0.key ∉ done.map Trip.key := by
      rw [List.map_append] at hN
      have h3 := (List.nodup_append.mp hN).2.2
      intro hmem
      exact (h3 hmem) (by simp)
    obtain ⟨ihS, ihV, ihM⟩ := ih hNd
    have hrun : mergeRun sigs initState (done ++ [t0]) =
        mergeStep sigs (mergeRun sigs initState done) t0 := by
      rw [mergeRun_append]
      rfl
    cases hfs : t0.sig.foreignSid with
    | some sid =>
      have hfor : t0.sig.isForeign = true := by
        rcases foreignSid_eq_some hfs with ⟨l, he⟩
        rw [he]
        rfl
      have hnf : nonForeign t0 = false := by
        unfold nonForeign
        rw [hfor]
        rfl
      have hfields : (mergeStep sigs (mergeRun sigs initState done) t0).signature_to_key =
            (mergeRun sigs initState done).signature_to_key ∧
          (mergeStep sigs (mergeRun sigs initState done) t0).variant_map =
            (mergeRun sigs initState done).variant_map ∧
          (mergeStep sigs (mergeRun sigs initState done) t0).merged =
            (mergeRun sigs initState done).merged := by
        rw [mergeStep_foreign hfs]
        exact foreignStep_fields sigs _ t0.key sid
      have hT0notFirst : isFirstOcc (done ++ [t0]) t0 = false := by
        unfold isFirstOcc
        rw [hnf]
        rfl
      have hFilt : (done ++ [t0]).filter (isFirstOcc (done ++ [t0])) =
          done.filter (isFirstOcc done) := by
        rw [filter_isFirstOcc_append, hT0notFirst]
        simp
      have hSigNe : ∀ u ∈ done.filter (isFirstOcc done), t0.sig ≠ u.sig := by
        intro u hu he
        have h2 := isFirstOcc_of_filter_mem hu
        unfold isFirstOcc at h2
        have h3 : nonForeign u = true := (bandElim h2).1
        unfold nonForeign at h3
        rw [← he, hfor] at h3
        exact Bool.noConfusion h3
      refine ⟨?_, ?_, ?_⟩
      · rw [hrun, hfields.1, ihS]
        unfold sig2keySpec
        rw [hFilt]
      · rw [hrun, hfields.2.1, ihV]
        unfold variantMapSpec
        have hFiltNF : (done ++ [t0]).filter nonForeign = done.filter nonForeign := by
          rw [List.filter_append]
          simp [List.filter, hnf]
        rw [hFiltNF]
        apply List.map_congr_left
        intro u hu
        have humem : u ∈ done := (List.mem_filter.mp hu).1
        rw [canonKeyOf_append_of_mem humem]
      · rw [hrun, hfields.2.2, ihM]
        unfold mergedSpec
        rw [hFilt]
        apply List.map_congr_left
        intro u hu
        unfold groupedEntry
        rw [groupForms_append_singleton, if_neg (hSigNe u hu)]
        simp
    | none =>
      have hforF : t0.sig.isForeign = false := foreignSid_eq_none.mp hfs
      have hnf : nonForeign t0 = true := by
        unfold nonForeign
        rw [hforF]
        rfl
      cases hlk : alookup (mergeRun sigs initState done).signature_to_key t0.sig with
      | some k0 =>
        have hlk2 : (firstWithSig done t0.sig).map Trip.key = some k0 := by
          rw [← alookup_sig2keySpec hforF, ← ihS]
          exact hlk
        cases hfw : firstWithSig done t0.sig with
        | none =>
          rw [hfw] at hlk2
          exact absurd hlk2 (by simp)
        | some u0 =>
        rw [hfw] at hlk2
        have hk0 : u0.key = k0 := by
          simpa using hlk2
        have hu0sig : u0.sig = t0.sig := firstWithSig_sig hfw
        have hu0mem : u0 ∈ done := firstWithSig_mem hfw
        have hu0ne : u0 ≠ t0 := by
          intro he
          apply hKey
          rw [← he]
          exact List.mem_map_of_mem Trip.key hu0mem
        have hT0notFirst : isFirstOcc (done ++ [t0]) t0 = false := by
          unfold isFirstOcc
          rw [firstWithSig_append, hfw]
          have h4 : (some u0).or (firstWithSig [t0] t0.sig) = some u0 := rfl
          rw [h4]
          simp only [Bool.and_eq_false_iff]
          right
          simp [hu0ne]
        have hFilt : (done ++ [t0]).filter (isFirstOcc (done ++ [t0])) =
            done.filter (isFirstOcc done) := by
          rw [filter_isFirstOcc_append, hT0notFirst]
          simp
        have hstep : mergeStep sigs (mergeRun sigs initState done) t0 =
            { mergeRun sigs initState done with
                merged := appendFormsAt (mergeRun sigs initState done).merged k0 t0.data.forms,
                variant_map := (mergeRun sigs initState done).variant_map ++ [(t0.key, k0)] } := by
          rw [mergeStep_plain hfs]
          exact plainStep_seen hlk
        refine ⟨?_, ?_, ?_⟩
        · rw [hrun, hstep]
          show (mergeRun sigs initState done).signature_to_key = sig2keySpec (done ++ [t0])
          rw [ihS]
          unfold sig2keySpec
          rw [hFilt]
        · rw [hrun, hstep]
          show (mergeRun sigs initState done).variant_map ++ [(t0.key, k0)] =
            variantMapSpec (done ++ [t0])
          rw [ihV]
          unfold variantMapSpec
          rw [List.filter_append]
          have h1 : [t0].filter nonForeign = [t0] := by
            simp [List.filter, hnf]
          rw [h1, List.map_append]
          congr 1
          · apply List.map_congr_left
            intro u hu
            have humem : u ∈ done := (List.mem_filter.mp hu).1
            rw [canonKeyOf_append_of_mem humem]
          · show [(t0.key, k0)] = [(t0.key, (canonKeyOf (done ++ [t0]) t0.sig).getD "")]
            have h2 : canonKeyOf (done ++ [t0]) t0.sig = canonKeyOf done t0.sig := by
              rw [← hu0sig]
              exact canonKeyOf_append_of_mem hu0mem
            rw [h2]
            unfold canonKeyOf
            rw [hfw]
            rw [Option.map_some']
            rw [hk0]
            rfl
        · rw [hrun, hstep]
          show appendFormsAt (mergeRun sigs initState done).merged k0 t0.data.forms =
            mergedSpec (done ++ [t0])
          rw [ihM]
          have hu0fo : isFirstOcc done u0 = true := by
            unfold isFirstOcc nonForeign
            rw [hu0sig, hfw, hforF]
            simp
          have hu0F : u0 ∈ done.filter (isFirstOcc done) :=
            List.mem_filter.mpr ⟨hu0mem, hu0fo⟩
          rcases List.append_of_mem hu0F with ⟨F1, F2, hF⟩
          have hFsub : (done.filter (isFirstOcc done)).Sublist done := List.filter_sublist done
          have hFkeysN : ((done.filter (isFirstOcc done)).map Trip.key).Nodup :=
            List.Nodup.sublist (hFsub.map Trip.key) hNd
          have hFN : (done.filter (isFirstOcc done)).Nodup := hFkeysN.of_map
          have hu0F1 : u0 ∉ F1 := by
            rw [hF] at hFN
            rcases List.nodup_append.mp hFN with ⟨_, _, hdisj⟩
            intro hm
            exact (hdisj hm) (List.mem_cons_self _ _)
          have hu0F2 : u0 ∉ F2 := by
            rw [hF] at hFN
            rcases List.nodup_append.mp hFN with ⟨_, hc, _⟩
            exact (List.nodup_cons.mp hc).1
          have hkeyF1 : u0.key ∉ F1.map Trip.key := by
            rw [hF] at hFkeysN
            rw [List.map_append] at hFkeysN
            rcases List.nodup_append.mp hFkeysN with ⟨_, _, hdisj⟩
            intro hm
            exact (hdisj hm) (by simp)
          have hsigne : ∀ u, u ∈ F1 ∨ u ∈ F2 → t0.sig ≠ u.sig := by
            intro u hu he
            have huF : u ∈ done.filter (isFirstOcc done) := by
              rw [hF]
              rcases hu with h | h
              · exact List.mem_append.mpr (Or.inl h)
              · exact List.mem_append.mpr (Or.inr (List.mem_cons_of_mem _ h))
            have hufo := isFirstOcc_of_filter_mem huF
            unfold isFirstOcc at hufo
            have h5 : firstWithSig done u.sig = some u :=
              of_decide_eq_true (bandElim hufo).2
            rw [← he, hfw] at h5
            have : u0 = u := by injection h5
            rcases hu with h | h
            · exact hu0F1 (this ▸ h)
            · exact hu0F2 (this ▸ h)
          unfold mergedSpec
          rw [hFilt, hF]
          rw [List.map_append, List.map_cons, List.map_append, List.map_cons]
          have hkeysEq : (F1.map (groupedEntry done)).map Prod.fst = F1.map Trip.key := by
            rw [List.map_map]
            rfl
          have hk0notF1 : k0 ∉ (F1.map (groupedEntry done)).map Prod.fst := by
            rw [hkeysEq, ← hk0]
            exact hkeyF1
          rw [appendFormsAt_append_left _ _ hk0notF1]
          have hhead : groupedEntry done u0 = (u0.key,
              ⟨(groupForms done u0.sig), u0.data.definitions, u0.data.canonical_shavian⟩) := rfl
          rw [hhead, ← hk0]
          rw [appendFormsAt_cons_self]
          congr 1
          · apply List.map_congr_left
            intro u hu
            unfold groupedEntry
            rw [groupForms_append_singleton, if_neg (hsigne u (Or.inl hu))]
            simp
          congr 1
          · unfold groupedEntry
            rw [groupForms_append_singleton]
            rw [if_pos hu0sig.symm]
          · apply List.map_congr_left
            intro u hu
            unfold groupedEntry
            rw [groupForms_append_singleton, if_neg (hsigne u (Or.inr hu))]
            simp
      | none =>
        have hfw : firstWithSig done t0.sig = none := by
          have h2 : (firstWithSig done t0.sig).map Trip.key = none := by
            rw [← alookup_sig2keySpec hforF, ← ihS]
            exact hlk
          exact Option.map_eq_none'.mp h2
        have hNoSig : ∀ u ∈ done, u.sig ≠ t0.sig := firstWithSig_eq_none.mp hfw
        have hT0First : isFirstOcc (done ++ [t0]) t0 = true := by
          unfold isFirstOcc
          rw [firstWithSig_append, hfw, hnf]
          have h4 : firstWithSig [t0] t0.sig = some t0 := by
            unfold firstWithSig
            simp [List.find?]
          rw [h4]
          simp
        have hFilt : (done ++ [t0]).filter (isFirstOcc (done ++ [t0])) =
            done.filter (isFirstOcc done) ++ [t0] := by
          rw [filter_isFirstOcc_append, hT0First]
          simp
        have hstep : mergeStep sigs (mergeRun sigs initState done) t0 =
            { mergeRun sigs initState done with
                merged := (mergeRun sigs initState done).merged ++ [(t0.key, t0.data)],
                variant_map := (mergeRun sigs initState done).variant_map ++ [(t0.key, t0.key)],
                signature_to_key :=
                  (mergeRun sigs initState done).signature_to_key ++ [(t0.sig, t0.key)] } := by
          rw [mergeStep_plain hfs]
          exact plainStep_new hlk
        have hcanonT0 : canonKeyOf (done ++ [t0]) t0.sig = some t0.key := by
          unfold canonKeyOf
          rw [firstWithSig_append, hfw]
          have h4 : firstWithSig [t0] t0.sig = some t0 := by
            unfold firstWithSig
            simp [List.find?]
          rw [h4]
          rfl
        refine ⟨?_, ?_, ?_⟩
        · rw [hrun, hstep]
          show (mergeRun sigs initState done).signature_to_key ++ [(t0.sig, t0.key)] =
            sig2keySpec (done ++ [t0])
          rw [ihS]
          unfold sig2keySpec
          rw [hFilt, List.map_append]
          rfl
        · rw [hrun, hstep]
          show (mergeRun sigs initState done).variant_map ++ [(t0.key, t0.key)] =
            variantMapSpec (done ++ [t0])
          rw [ihV]
          unfold variantMapSpec
          rw [List.filter_append]
          have h1 : [t0].filter nonForeign = [t0] := by
            simp [List.filter, hnf]
          rw [h1, List.map_append]
          congr 1
          · apply List.map_congr_left
            intro u hu
            have humem : u ∈ done := (List.mem_filter.mp hu).1
            rw [canonKeyOf_append_of_mem humem]
          · show [(t0.key, t0.key)] = [(t0.key, (canonKeyOf (done ++ [t0]) t0.sig).getD "")]
            rw [hcanonT0]
            rfl
        · rw [hrun, hstep]
          show (mergeRun sigs initState done).merged ++ [(t0.key, t0.data)] =
            mergedSpec (done ++ [t0])
          rw [ihM]
          unfold mergedSpec
          rw [hFilt, List.map_append]
          congr 1
          · apply List.map_congr_left
            intro u hu
            unfold groupedEntry
            have humem : u ∈ done := (List.mem_filter.mp hu).1
            rw [groupForms_append_singleton,
              if_neg (fun (he : t0.sig = u.sig) => (hNoSig u humem) he.symm)]
            simp
          · show [(t0.key, t0.data)] = [groupedEntry (done ++ [t0]) t0]
            unfold groupedEntry
            rw [groupForms_append_singleton, if_pos rfl]
            have hEmpty : groupForms done t0.sig = [] := by
              unfold groupForms
              have h5 : done.filter (fun u => decide (u.sig = t0.sig)) = [] := by
                rw [List.filter_eq_nil_iff]
                intro u hu
                simp only [decide_eq_true_eq]
                exact hNoSig u hu
              rw [h5]
              rfl
            rw [hEmpty]
            rfl

/-! ## Record flow through the merge pass (partition facts) -/

/-- The concatenation of the forms of all merged entries, in entry
order. -/
def flatForms (l : List (String × EntryData)) : List Form :=
  l.flatMap fun kd => kd.2.forms

theorem flatForms_append (l1 l2 : List (String × EntryData)) :
    flatForms (l1 ++ l2) = flatForms l1 ++ flatForms l2 := by
  unfold flatForms
  rw [List.flatMap_append]

theorem flatForms_appendFormsAt {l : List (String × EntryData)} {k : String} (fs : List Form)
    (h : k ∈ l.map Prod.fst) :
    (flatForms (appendFormsAt l k fs)).Perm (flatForms l ++ fs) := by
  induction l with
  | nil => simp at h
  | cons p t ih =>
    obtain ⟨k2, d⟩ := p
    by_cases hk : k2 = k
    · subst hk
      rw [appendFormsAt_cons_self]
      unfold flatForms
      simp only [List.flatMap_cons]
      rw [List.append_assoc, List.append_assoc]
      exact List.Perm.append_left d.forms List.perm_append_comm
    · have h2 : k ∈ t.map Prod.fst := by
        rcases List.mem_map.mp h with ⟨q, hq, hqk⟩
        rcases List.mem_cons.mp hq with rfl | hq2
        · exact absurd hqk hk
        · exact List.mem_map.mpr ⟨q, hq2, hqk⟩
      have hrec := ih h2
      have hform : appendFormsAt ((k2, d) :: t) k fs = (k2, d) :: appendFormsAt t k fs := by
        simp only [appendFormsAt]
        rw [if_neg hk]
      rw [hform]
      unfold flatForms
      simp only [List.flatMap_cons]
      rw [List.append_assoc]
      exact List.Perm.append_left d.forms hrec

/-- Every signature bound in `signature_to_key` names an existing merged
entry. -/
def SigKeysBound (st : MergeState) : Prop :=
  ∀ p ∈ st.signature_to_key, p.2 ∈ st.merged.map Prod.fst

theorem plainStep_f2h (st : MergeState) (t : Trip) :
    (plainStep st t).foreign_to_home = st.foreign_to_home := by
  unfold plainStep
  split
  · rfl
  · rfl

theorem sigKeysBound_mergeStep (sigs : List (String × Sig)) (st : MergeState) (t : Trip)
    (h : SigKeysBound st) : SigKeysBound (mergeStep sigs st t) := by
  cases hfs : t.sig.foreignSid with
  | some sid =>
    rw [mergeStep_foreign hfs]
    have hf := foreignStep_fields sigs st t.key sid
    intro p hp
    rw [hf.1] at hp
    rw [hf.2.2]
    exact h p hp
  | none =>
    rw [mergeStep_plain hfs]
    cases hlk : alookup st.signature_to_key t.sig with
    | some k0 =>
      rw [plainStep_seen hlk]
      intro p hp
      simp only at hp
      rw [appendFormsAt_keys]
      exact h p hp
    | none =>
      rw [plainStep_new hlk]
      intro p hp
      simp only at hp
      rw [List.map_append]
      rcases List.mem_append.mp hp with hp2 | hp2
      · exact List.mem_append.mpr (Or.inl (h p hp2))
      · have : p = (t.sig, t.key) := by simpa using hp2
        subst this
        exact List.mem_append.mpr (Or.inr (by simp))

theorem mergeRun_flat_perm (sigs : List (String × Sig)) :
    ∀ (l : List Trip) (st : MergeState), SigKeysBound st →
    (flatForms (mergeRun sigs st l).merged).Perm
      (flatForms st.merged ++ (l.filter nonForeign).flatMap fun t => t.data.forms) := by
  intro l
  induction l with
  | nil =>
    intro st _
    simp [mergeRun]
  | cons t rest ih =>
    intro st hB
    have hrun : mergeRun sigs st (t :: rest) = mergeRun sigs (mergeStep sigs st t) rest := rfl
    rw [hrun]
    have hrec := ih (mergeStep sigs st t) (sigKeysBound_mergeStep sigs st t hB)
    cases hfs : t.sig.foreignSid with
    | some sid =>
      have hfor : t.sig.isForeign = true := by
        rcases foreignSid_eq_some hfs with ⟨lm, he⟩
        rw [he]
        rfl
      have hnf : nonForeign t = false := by
        unfold nonForeign
        rw [hfor]
        rfl
      have hm : (mergeStep sigs st t).merged = st.merged := by
        rw [mergeStep_foreign hfs]
        exact (foreignStep_fields sigs st t.key sid).2.2
      rw [hm] at hrec
      have hfilt : (t :: rest).filter nonForeign = rest.filter nonForeign := by
        simp [List.filter, hnf]
      rw [hfilt]
      exact hrec
    | none =>
      have hfor : t.sig.isForeign = false := foreignSid_eq_none.mp hfs
      have hnf : nonForeign t = true := by
        unfold nonForeign
        rw [hfor]
        rfl
      have hfilt : (t :: rest).filter nonForeign = t :: rest.filter nonForeign := by
        simp [List.filter, hnf]
      rw [hfilt]
      simp only [List.flatMap_cons]
      rw [mergeStep_plain hfs] at hrec ⊢
      cases hlk : alookup st.signature_to_key t.sig with
      | some k0 =>
        rw [plainStep_seen hlk] at hrec ⊢
        simp only at hrec
        have hk0 : k0 ∈ st.merged.map Prod.fst := by
          have hmem := alookup_mem hlk
          exact hB (t.sig, k0) hmem
        have hap := flatForms_appendFormsAt t.data.forms hk0
        refine hrec.trans ?_
        refine (List.Perm.append_right _ hap).trans ?_
        rw [List.append_assoc]
      | none =>
        rw [plainStep_new hlk] at hrec ⊢
        simp only at hrec
        rw [flatForms_append] at hrec
        have hone : flatForms [(t.key, t.data)] = t.data.forms := by
          unfold flatForms
          simp
        rw [hone] at hrec
        refine hrec.trans ?_
        rw [List.append_assoc]

/-! ## Cross-reference facts of the merge pass -/

/-- What a recorded pair of `foreign_to_home` guarantees: the first
component carries a `Foreign` signature in the assignment, and the second
is the canonical key of a `('synset', _, sid)` signature with the same
sense identifier, naming an existing merged entry. -/
def GoodXref (sigs : List (String × Sig)) (st : MergeState) (p : String × String) : Prop :=
  ∃ lem sid lem2,
    (p.1, Sig.foreign lem sid) ∈ sigs ∧
    (Sig.synset lem2 sid, p.2) ∈ st.signature_to_key ∧
    p.2 ∈ st.merged.map Prod.fst

theorem goodXref_mono {sigs : List (String × Sig)} {st st2 : MergeState} {p : String × String}
    (h : GoodXref sigs st p)
    (hS : ∀ q ∈ st.signature_to_key, q ∈ st2.signature_to_key)
    (hM : ∀ k ∈ st.merged.map Prod.fst, k ∈ st2.merged.map Prod.fst) :
    GoodXref sigs st2 p := by
  rcases h with ⟨lem, sid, lem2, h1, h2, h3⟩
  exact ⟨lem, sid, lem2, h1, hS _ h2, hM _ h3⟩

theorem mergeStep_mono (sigs : List (String × Sig)) (st : MergeState) (t : Trip) :
    (∀ q ∈ st.signature_to_key, q ∈ (mergeStep sigs st t).signature_to_key) ∧
    (∀ k ∈ st.merged.map Prod.fst, k ∈ (mergeStep sigs st t).merged.map Prod.fst) := by
  cases hfs : t.sig.foreignSid with
  | some sid =>
    rw [mergeStep_foreign hfs]
    have hf := foreignStep_fields sigs st t.key sid
    rw [hf.1, hf.2.2]
    exact ⟨fun q hq => hq, fun k hk => hk⟩
  | none =>
    rw [mergeStep_plain hfs]
    cases hlk : alookup st.signature_to_key t.sig with
    | some k0 =>
      rw [plainStep_seen hlk]
      constructor
      · intro q hq
        exact hq
      · intro k hk
        simp only
        rw [appendFormsAt_keys]
        exact hk
    | none =>
      rw [plainStep_new hlk]
      constructor
      · intro q hq
        simp only
        exact List.mem_append.mpr (Or.inl hq)
      · intro k hk
        simp only
        rw [List.map_append]
        exact List.mem_append.mpr (Or.inl hk)

theorem foreignStep_f2h_good (sigs : List (String × Sig)) (st : MergeState) (key sid : String)
    (hB : SigKeysBound st) :
    ∀ p ∈ (foreignStep sigs st key sid).foreign_to_home,
      p ∈ st.foreign_to_home ∨
      (p.1 = key ∧ ∃ lem2, (Sig.synset lem2 sid, p.2) ∈ st.signature_to_key ∧
        p.2 ∈ st.merged.map Prod.fst) := by
  intro p hp
  unfold foreignStep at hp
  split at hp
  · rename_i hs heq
    split at hp
    · rename_i home_key heq2
      simp only at hp
      rcases List.mem_append.mp hp with h1 | h1
      · exact Or.inl h1
      · have hpe : p = (key, home_key) := by simpa using h1
        subst hpe
        refine Or.inr ⟨rfl, ?_⟩
        unfold find_home_sig at heq
        rcases Option.map_eq_some'.mp heq with ⟨q, hq1, hq2⟩
        have hq3 := List.find?_some hq1
        rcases isSynsetWith_iff.mp hq3 with ⟨lem2, hq4⟩
        have hmem := alookup_mem heq2
        rw [← hq2, hq4] at hmem
        refine ⟨lem2, hmem, ?_⟩
        exact hB _ hmem
    · exact Or.inl hp
  · exact Or.inl hp

theorem mergeStep_xref_good (sigs : List (String × Sig)) (st : MergeState) (t : Trip)
    (hB : SigKeysBound st)
    (hG : ∀ p ∈ st.foreign_to_home, GoodXref sigs st p)
    (hsig : (t.key, t.sig) ∈ sigs) :
    ∀ p ∈ (mergeStep sigs st t).foreign_to_home, GoodXref sigs (mergeStep sigs st t) p := by
  intro p hp
  have hmono := mergeStep_mono sigs st t
  cases hfs : t.sig.foreignSid with
  | none =>
    rw [mergeStep_plain hfs, plainStep_f2h] at hp
    exact goodXref_mono (hG p hp) hmono.1 hmono.2
  | some sid =>
    have hp2 : p ∈ (foreignStep sigs st t.key sid).foreign_to_home := by
      rw [← mergeStep_foreign hfs]
      exact hp
    rcases foreignStep_f2h_good sigs st t.key sid hB p hp2 with h1 | ⟨hpk, lem2, h2, h3⟩
    · exact goodXref_mono (hG p h1) hmono.1 hmono.2
    · rcases foreignSid_eq_some hfs with ⟨lem, hsigeq⟩
      refine ⟨lem, sid, lem2, ?_, hmono.1 _ h2, hmono.2 _ h3⟩
      rw [hpk, ← hsigeq]
      exact hsig

theorem mergeRun_xref (sigs : List (String × Sig)) :
    ∀ (l : List Trip) (st : MergeState), SigKeysBound st →
    (∀ p ∈ st.foreign_to_home, GoodXref sigs st p) →
    (∀ t ∈ l, (t.key, t.sig) ∈ sigs) →
    ∀ p ∈ (mergeRun sigs st l).foreign_to_home, GoodXref sigs (mergeRun sigs st l) p := by
  intro l
  induction l with
  | nil =>
    intro st _ hG _
    exact hG
  | cons t rest ih =>
    intro st hB hG hsub
    have hrun : mergeRun sigs st (t :: rest) = mergeRun sigs (mergeStep sigs st t) rest := rfl
    rw [hrun]
    exact ih (mergeStep sigs st t) (sigKeysBound_mergeStep sigs st t hB)
      (mergeStep_xref_good sigs st t hB hG (hsub t (List.mem_cons_self _ _)))
      (fun u hu => hsub u (List.mem_cons_of_mem _ hu))

/-! ## Index bucket membership -/

theorem bucketOf_nil (t : String) : bucketOf [] t = [] := rfl

theorem bucketOf_cons {t2 : String} {ks : List String} {rest : List (String × List String)}
    {t : String} :
    bucketOf ((t2, ks) :: rest) t = if t2 = t then ks else bucketOf rest t := by
  unfold bucketOf
  by_cases h : t2 = t
  · simp only [alookup, if_pos h, Option.getD_some]
  · simp only [alookup, if_neg h]

theorem mem_bucketOf_indexAdd {idx : List (String × List String)} {term key t k : String} :
    k ∈ bucketOf (indexAdd idx term key) t ↔
      k ∈ bucketOf idx t ∨ (t = term ∧ k = key) := by
  induction idx with
  | nil =>
    simp only [indexAdd]
    by_cases h : term = t
    · subst h
      rw [bucketOf_cons, if_pos rfl, bucketOf_nil]
      simp
    · rw [bucketOf_cons, if_neg h]
      constructor
      · intro hk
        exact absurd hk (List.not_mem_nil k)
      · rintro (hk | ⟨he, _⟩)
        · exact hk
        · exact absurd he.symm h
  | cons p rest ih =>
    obtain ⟨t2, ks⟩ := p
    simp only [indexAdd]
    by_cases h : t2 = term
    · rw [if_pos h]
      by_cases h2 : t2 = t
      · subst h2
        rw [bucketOf_cons, if_pos rfl, bucketOf_cons, if_pos rfl]
        subst h
        by_cases hc : ks.contains key = true
        · rw [if_pos hc]
          have hkm : key ∈ ks := by
            simpa using hc
          constructor
          · exact Or.inl
          · rintro (hk | ⟨_, rfl⟩)
            · exact hk
            · exact hkm
        · rw [if_neg hc]
          rw [List.mem_append, List.mem_singleton]
          constructor
          · rintro (hk | rfl)
            · exact Or.inl hk
            · exact Or.inr ⟨rfl, rfl⟩
          · rintro (hk | ⟨_, rfl⟩)
            · exact Or.inl hk
            · exact Or.inr rfl
      · rw [bucketOf_cons, if_neg h2, bucketOf_cons, if_neg h2]
        constructor
        · exact Or.inl
        · rintro (hk | ⟨he, _⟩)
          · exact hk
          · rw [h] at h2
            exact absurd he.symm h2
    · rw [if_neg h]
      by_cases h2 : t2 = t
      · subst h2
        rw [bucketOf_cons, if_pos rfl, bucketOf_cons, if_pos rfl]
        constructor
        · exact Or.inl
        · rintro (hk | ⟨he, _⟩)
          · exact hk
          · exact absurd he h
      · rw [bucketOf_cons, if_neg h2, bucketOf_cons, if_neg h2]
        exact ih

theorem mem_bucketOf_foldl_terms {terms : List String} {idx : List (String × List String)}
    {key t k : String} :
    k ∈ bucketOf (terms.foldl (fun idx term => indexAdd idx term key) idx) t ↔
      k ∈ bucketOf idx t ∨ (t ∈ terms ∧ k = key) := by
  induction terms generalizing idx with
  | nil => simp
  | cons term rest ih =>
    simp only [List.foldl_cons]
    rw [ih, mem_bucketOf_indexAdd]
    simp only [List.mem_cons]
    constructor
    · rintro ((hk | ⟨rfl, rfl⟩) | ⟨hm, rfl⟩)
      · exact Or.inl hk
      · exact Or.inr ⟨Or.inl rfl, rfl⟩
      · exact Or.inr ⟨Or.inr hm, rfl⟩
    · rintro (hk | ⟨(rfl | hm), rfl⟩)
      · exact Or.inl (Or.inl hk)
      · exact Or.inl (Or.inr ⟨rfl, rfl⟩)
      · exact Or.inr ⟨hm, rfl⟩

theorem mem_bucketOf_buildIndex {ik : IndexKey} {vm : List (String × String)}
    {merged : List (String × EntryData)} {t k : String} :
    k ∈ bucketOf (buildIndex ik vm merged) t ↔
      ∃ kd ∈ merged, alookup vm kd.1 = some kd.1 ∧ kd.1 = k ∧ t ∈ entryTerms ik kd.2 := by
  have haux : ∀ (ms : List (String × EntryData)) (idx : List (String × List String)),
      k ∈ bucketOf (ms.foldl (fun idx kd =>
        if alookup vm kd.1 = some kd.1 then
          (entryTerms ik kd.2).foldl (fun idx term => indexAdd idx term kd.1) idx
        else idx) idx) t ↔
      k ∈ bucketOf idx t ∨
        ∃ kd ∈ ms, alookup vm kd.1 = some kd.1 ∧ kd.1 = k ∧ t ∈ entryTerms ik kd.2 := by
    intro ms
    induction ms with
    | nil => simp
    | cons kd rest ih =>
      intro idx
      simp only [List.foldl_cons]
      rw [ih]
      by_cases hv : alookup vm kd.1 = some kd.1
      · rw [if_pos hv, mem_bucketOf_foldl_terms]
        simp only [List.mem_cons]
        constructor
        · rintro ((hk | ⟨hm, rfl⟩) | ⟨kd2, hm2, h3, h4, h5⟩)
          · exact Or.inl hk
          · exact Or.inr ⟨kd, Or.inl rfl, hv, rfl, hm⟩
          · exact Or.inr ⟨kd2, Or.inr hm2, h3, h4, h5⟩
        · rintro (hk | ⟨kd2, (rfl | hm2), h3, h4, h5⟩)
          · exact Or.inl (Or.inl hk)
          · exact Or.inl (Or.inr ⟨h5, h4.symm ▸ rfl⟩)
          · exact Or.inr ⟨kd2, hm2, h3, h4, h5⟩
      · rw [if_neg hv]
        simp only [List.mem_cons]
        constructor
        · rintro (hk | ⟨kd2, hm2, h3, h4, h5⟩)
          · exact Or.inl hk
          · exact Or.inr ⟨kd2, Or.inr hm2, h3, h4, h5⟩
        · rintro (hk | ⟨kd2, (rfl | hm2), h3, h4, h5⟩)
          · exact Or.inl hk
          · exact absurd h3 hv
          · exact Or.inr ⟨kd2, hm2, h3, h4, h5⟩
  unfold buildIndex
  rw [haux]
  constructor
  · rintro (hk | h)
    · exact absurd hk (List.not_mem_nil k)
    · exact h
  · intro h
    exact Or.inr h

theorem mem_entryTerms_shaw {d : EntryData} {t : String} :
    t ∈ entryTerms IndexKey.shaw d ↔ ∃ f ∈ d.forms, f.is_lemma = true ∧ f.shaw = t := by
  unfold entryTerms
  rw [mem_dedupL]
  constructor
  · intro h
    rcases List.mem_map.mp h with ⟨f, hf, hft⟩
    rcases List.mem_filter.mp hf with ⟨hf1, hf2⟩
    exact ⟨f, hf1, hf2, hft⟩
  · rintro ⟨f, hf, hl, hs⟩
    exact List.mem_map.mpr ⟨f, List.mem_filter.mpr ⟨hf, hl⟩, hs⟩

theorem mem_entryTerms_latn {d : EntryData} {t : String} :
    t ∈ entryTerms IndexKey.latn d ↔
      ∃ f, (d.forms.filter (fun g => g.is_lemma)).head? = some f ∧ t = strLower f.latn := by
  unfold entryTerms
  cases hfl : d.forms.filter (fun g => g.is_lemma) with
  | nil => simp
  | cons f rest => simp

/-! ## Order facts for the bucket sort key -/

theorem boolLe_rfl (a : Bool) : boolLe a a = true := by
  cases a <;> rfl

theorem sortKeyLE_refl (a : SortKey) : sortKeyLE a a = true := by
  unfold sortKeyLE
  rw [if_pos rfl, if_pos rfl]
  exact strLe_refl _

theorem sortKeyLE_total (a b : SortKey) : sortKeyLE a b = true ∨ sortKeyLE b a = true := by
  unfold sortKeyLE
  by_cases h1 : a.indirect = b.indirect
  · rw [if_pos h1, if_pos h1.symm]
    by_cases h2 : a.lemma_text = b.lemma_text
    · rw [if_pos h2, if_pos h2.symm]
      exact strLe_total _ _
    · rw [if_neg h2, if_neg (fun he => h2 he.symm)]
      rcases strLe_total a.lemma_text b.lemma_text with h | h
      · exact Or.inl (strLt_iff.mpr ⟨h, h2⟩)
      · exact Or.inr (strLt_iff.mpr ⟨h, fun he => h2 he.symm⟩)
  · rw [if_neg h1, if_neg (fun he => h1 he.symm)]
    cases ha : a.indirect
    · exact Or.inl (by simp [boolLe])
    · exact Or.inr (by simp [boolLe, ha])

theorem sortKeyLE_trans {a b c : SortKey} (h1 : sortKeyLE a b = true)
    (h2 : sortKeyLE b c = true) : sortKeyLE a c = true := by
  unfold sortKeyLE at h1 h2 ⊢
  by_cases hab : a.indirect = b.indirect
  · rw [if_pos hab] at h1
    by_cases hbc : b.indirect = c.indirect
    · rw [if_pos hbc] at h2
      rw [if_pos (hab.trans hbc)]
      by_cases hab2 : a.lemma_text = b.lemma_text
      · rw [if_pos hab2] at h1
        by_cases hbc2 : b.lemma_text = c.lemma_text
        · rw [if_pos hbc2] at h2
          rw [if_pos (hab2.trans hbc2)]
          exact strLe_trans h1 h2
        · rw [if_neg hbc2] at h2
          have hac2 : a.lemma_text ≠ c.lemma_text := by
            rw [hab2]
            exact hbc2
          rw [if_neg hac2, hab2]
          exact h2
      · rw [if_neg hab2] at h1
        by_cases hbc2 : b.lemma_text = c.lemma_text
        · have hac2 : a.lemma_text ≠ c.lemma_text := by
            rw [← hbc2]
            exact hab2
          rw [if_neg hac2, ← hbc2]
          exact h1
        · rw [if_neg hbc2] at h2
          have hlt := strLt_trans h1 h2
          rw [if_neg (strLt_iff.mp hlt).2]
          exact hlt
    · rw [if_neg hbc] at h2
      have hac : a.indirect ≠ c.indirect := by
        rw [hab]
        exact hbc
      rw [if_neg hac, hab]
      exact h2
  · rw [if_neg hab] at h1
    by_cases hbc : b.indirect = c.indirect
    · have hac : a.indirect ≠ c.indirect := by
        rw [← hbc]
        exact hab
      rw [if_neg hac, ← hbc]
      exact h1
    · rw [if_neg hbc] at h2
      by_cases hac : a.indirect = c.indirect
      · rw [if_pos hac]
        revert h1 h2
        cases ha : a.indirect <;> cases hb : b.indirect <;> cases hc2 : c.indirect <;>
          simp_all [boolLe]
      · rw [if_neg hac]
        revert h1 h2
        cases ha : a.indirect <;> cases hb : b.indirect <;> cases hc2 : c.indirect <;>
          simp_all [boolLe]

/-! ## Facts about signature assignment -/

theorem sig_of_key_readlex {home_dialect : String} {cache : WordnetCache} {key : String}
    {d : EntryData} (h : sig_synsets cache key d = []) :
    sig_of_key home_dialect cache key d = .readlex key := by
  unfold sig_of_key
  rw [h]

theorem sig_of_key_cons {home_dialect : String} {cache : WordnetCache} {key : String}
    {d : EntryData} {sid : String} {rest : List String}
    (h : sig_synsets cache key d = sid :: rest) :
    sig_of_key home_dialect cache key d =
      if is_foreign_dialect_lemma (keyHead key) sid home_dialect cache
      then .foreign (keyHead key) sid
      else .synset (keyHead key) sid := by
  unfold sig_of_key
  rw [h]

theorem sig_of_key_readlex_inj {home_dialect : String} {cache : WordnetCache}
    {key key2 : String} {d : EntryData}
    (h : sig_of_key home_dialect cache key d = .readlex key2) : key2 = key := by
  cases hs : sig_synsets cache key d with
  | nil =>
    rw [sig_of_key_readlex hs] at h
    injection h with h2
    exact h2.symm
  | cons sid rest =>
    rw [sig_of_key_cons hs] at h
    by_cases hf : is_foreign_dialect_lemma (keyHead key) sid home_dialect cache = true
    · rw [if_pos hf] at h
      exact absurd h (by simp)
    · rw [if_neg hf] at h
      exact absurd h (by simp)

/-! ## Facts about the assembled pipeline -/

theorem pipeline_trips_sig (dt : DictType) (dialect : String) (cache : WordnetCache)
    (translit_defs : List (String × TransDef)) (wn_defs : List (String × List DefEntry))
    (readlex_data : List (String × ReadlexData)) :
    ∀ t ∈ pipeline_trips dt dialect cache translit_defs wn_defs readlex_data,
      t.sig = sig_of_key (home_dialect_of (preferred_var_of dialect)) cache t.key t.data := by
  intro t ht
  unfold pipeline_trips build_trips at ht
  rcases List.mem_map.mp ht with ⟨kd, _, hkd⟩
  rw [← hkd]

theorem pipeline_trips_keys (dt : DictType) (dialect : String) (cache : WordnetCache)
    (translit_defs : List (String × TransDef)) (wn_defs : List (String × List DefEntry))
    (readlex_data : List (String × ReadlexData)) :
    (pipeline_trips dt dialect cache translit_defs wn_defs readlex_data).map Trip.key =
      readlex_data.map Prod.fst := by
  unfold pipeline_trips build_trips pipeline_entries build_readlex_entries
  rw [List.map_map, List.map_map]
  rfl

theorem pipeline_trips_of_mem (dt : DictType) (dialect : String) (cache : WordnetCache)
    (translit_defs : List (String × TransDef)) (wn_defs : List (String × List DefEntry))
    (readlex_data : List (String × ReadlexData)) {k : String} {data : ReadlexData}
    (h : (k, data) ∈ readlex_data) :
    (⟨k, build_entry_data dt (preferred_var_of dialect) cache translit_defs wn_defs data,
      sig_of_key (home_dialect_of (preferred_var_of dialect)) cache k
        (build_entry_data dt (preferred_var_of dialect) cache translit_defs wn_defs data)⟩ : Trip) ∈
      pipeline_trips dt dialect cache translit_defs wn_defs readlex_data := by
  unfold pipeline_trips build_trips pipeline_entries build_readlex_entries
  rw [List.map_map]
  exact List.mem_map.mpr ⟨(k, data), h, rfl⟩

theorem pipeline_sigs_of_trip (dt : DictType) (dialect : String) (cache : WordnetCache)
    (translit_defs : List (String × TransDef)) (wn_defs : List (String × List DefEntry))
    (readlex_data : List (String × ReadlexData)) :
    ∀ t ∈ pipeline_trips dt dialect cache translit_defs wn_defs readlex_data,
      (t.key, t.sig) ∈ pipeline_sigs dt dialect cache translit_defs wn_defs readlex_data := by
  intro t ht
  exact List.mem_map.mpr ⟨t, ht, rfl⟩

theorem pipeline_struct (dt : DictType) (dialect : String) (cache : WordnetCache)
    (translit_defs : List (String × TransDef)) (wn_defs : List (String × List DefEntry))
    (readlex_data : List (String × ReadlexData))
    (hN : (readlex_data.map Prod.fst).Nodup) :
    (pipeline_state dt dialect cache translit_defs wn_defs readlex_data).signature_to_key =
      sig2keySpec (pipeline_trips dt dialect cache translit_defs wn_defs readlex_data) ∧
    (pipeline_state dt dialect cache translit_defs wn_defs readlex_data).variant_map =
      variantMapSpec (pipeline_trips dt dialect cache translit_defs wn_defs readlex_data) ∧
    (pipeline_state dt dialect cache translit_defs wn_defs readlex_data).merged =
      mergedSpec (pipeline_trips dt dialect cache translit_defs wn_defs readlex_data) := by
  apply mergeRun_struct
  rw [pipeline_trips_keys]
  exact hN

/-! ## Derived association lookup facts -/

theorem trips_inj_of_nodup {trips : List Trip} (hN : (trips.map Trip.key).Nodup)
    {u v : Trip} (hu : u ∈ trips) (hv : v ∈ trips) (hk : u.key = v.key) : u = v :=
  List.inj_on_of_nodup_map hN hu hv hk

theorem mem_mergedSpec_iff {trips : List Trip} {p : String × EntryData} :
    p ∈ mergedSpec trips ↔
      ∃ t ∈ trips, isFirstOcc trips t = true ∧ p = groupedEntry trips t := by
  unfold mergedSpec
  constructor
  · intro h
    rcases List.mem_map.mp h with ⟨t, ht, htp⟩
    rcases List.mem_filter.mp ht with ⟨ht1, ht2⟩
    exact ⟨t, ht1, ht2, htp.symm⟩
  · rintro ⟨t, ht, hfo, rfl⟩
    exact List.mem_map.mpr ⟨t, List.mem_filter.mpr ⟨ht, hfo⟩, rfl⟩

theorem alookup_mergedSpec_firstOcc {trips : List Trip} (hN : (trips.map Trip.key).Nodup)
    {t : Trip} (hfo : isFirstOcc trips t = true) :
    alookup (mergedSpec trips) t.key =
      some ⟨groupForms trips t.sig, t.data.definitions, t.data.canonical_shavian⟩ := by
  have ht : t ∈ trips := firstWithSig_mem (of_decide_eq_true (bandElim hfo).2)
  apply alookup_of_mem_unique
  · exact mem_mergedSpec_iff.mpr ⟨t, ht, hfo, rfl⟩
  · intro p hp hpk
    rcases mem_mergedSpec_iff.mp hp with ⟨w, hw, hwfo, rfl⟩
    have hwk : w.key = t.key := hpk
    have hwt : w = t := trips_inj_of_nodup hN hw ht hwk
    rw [hwt]
    rfl

theorem alookup_variantMapSpec_mem {trips : List Trip} (hN : (trips.map Trip.key).Nodup)
    {t : Trip} (ht : t ∈ trips) (hnf : nonForeign t = true) :
    alookup (variantMapSpec trips) t.key = some ((canonKeyOf trips t.sig).getD "") := by
  apply alookup_of_mem_unique
  · unfold variantMapSpec
    exact List.mem_map.mpr ⟨t, List.mem_filter.mpr ⟨ht, hnf⟩, rfl⟩
  · intro p hp hpk
    unfold variantMapSpec at hp
    rcases List.mem_map.mp hp with ⟨w, hw, hwp⟩
    have hwmem : w ∈ trips := (List.mem_filter.mp hw).1
    have hwk : w.key = t.key := by
      rw [← hwp] at hpk
      exact hpk
    have hwt : w = t := trips_inj_of_nodup hN hwmem ht hwk
    rw [← hwp, hwt]

theorem canonKeyOf_firstOcc {trips : List Trip} {t : Trip} (hfo : isFirstOcc trips t = true) :
    canonKeyOf trips t.sig = some t.key := by
  unfold canonKeyOf
  rw [of_decide_eq_true (bandElim hfo).2]
  rfl

theorem mergedSpec_variant_self {trips : List Trip} (hN : (trips.map Trip.key).Nodup)
    {p : String × EntryData} (hp : p ∈ mergedSpec trips) :
    alookup (variantMapSpec trips) p.1 = some p.1 := by
  rcases mem_mergedSpec_iff.mp hp with ⟨t, ht, hfo, rfl⟩
  have hnf : nonForeign t = true := (bandElim hfo).1
  have h1 := alookup_variantMapSpec_mem hN ht hnf
  rw [canonKeyOf_firstOcc hfo] at h1
  exact h1

theorem all_eq_nodup_singleton {α : Type} {l : List α} {t : α} (hN : l.Nodup)
    (hmem : t ∈ l) (hall : ∀ u ∈ l, u = t) : l = [t] := by
  cases l with
  | nil => simp at hmem
  | cons a rest =>
    have ha : a = t := hall a (List.mem_cons_self _ _)
    subst ha
    have hrest : rest = [] := by
      cases rest with
      | nil => rfl
      | cons b rb =>
        have hb : b = a := hall b (List.mem_cons_of_mem _ (List.mem_cons_self _ _))
        rcases List.nodup_cons.mp hN with ⟨hna, _⟩
        exact absurd (hb ▸ List.mem_cons_self b rb) hna
    rw [hrest]

/-! ## The classifier as an existential condition -/

theorem variants_match_iff {s : Sense} {home_dialect lw : String} :
    (match alookup s.variants home_dialect with
     | some home_variants => !(home_variants.contains lw)
     | none => false) = true ↔
    ∃ hv, alookup s.variants home_dialect = some hv ∧ lw ∉ hv := by
  cases h : alookup s.variants home_dialect with
  | none => simp
  | some hv => simp

theorem is_foreign_dialect_lemma_iff (lemm synset_id home_dialect : String)
    (cache : WordnetCache) :
    is_foreign_dialect_lemma lemm synset_id home_dialect cache = true ↔
      (cache.isEmpty = false ∧ synset_id ≠ "" ∧
       ∃ e, alookup cache (strLower lemm) = some e ∧
         ∃ pd ∈ e.pos_entries, ∃ s ∈ pd.2.sense_variants,
           s.synset = some synset_id ∧
           ∃ hv, alookup s.variants home_dialect = some hv ∧ strLower lemm ∉ hv) := by
  unfold is_foreign_dialect_lemma
  by_cases hce : cache.isEmpty = true
  · rw [if_pos (by simp [hce])]
    simp [hce]
  · by_cases hsid : synset_id = ""
    · rw [if_pos (by simp [hsid])]
      simp [hsid]
    · rw [if_neg (by simp [hce, hsid])]
      have hce2 : cache.isEmpty = false := by
        revert hce
        cases cache.isEmpty <;> simp
      cases hl : alookup cache (strLower lemm) with
      | none =>
        simp [hce2, hsid]
      | some entry =>
        simp only [List.any_eq_true, Bool.and_eq_true, decide_eq_true_eq, variants_match_iff,
          hce2, hsid, ne_eq, not_false_iff, true_and, Option.some.injEq]
        constructor
        · rintro ⟨pd, hpd, s, hs, h1, hv, h2, h3⟩
          exact ⟨entry, rfl, pd, hpd, s, hs, h1, hv, h2, h3⟩
        · rintro ⟨e, he, pd, hpd, s, hs, h1, hv, h2, h3⟩
          subst he
          exact ⟨pd, hpd, s, hs, h1, hv, h2, h3⟩

/-! ## Cross-referenced index values -/

theorem form_index_val_mem_values (ik : IndexKey) (f : Form) :
    form_index_val ik f ∈ index_values_of_form ik f := by
  unfold index_values_of_form
  cases ik <;> by_cases h : is_proper_noun f.pos = true <;> simp [h]

theorem mem_entry_index_values_foreign {ik : IndexKey}
    {res : List (String × EntryData)} {f2h : List (String × String)}
    {entry_key : String} {d : EntryData} {fk : String} {fd : EntryData} {f : Form}
    (hmem : (fk, entry_key) ∈ f2h) (hfd : alookup res fk = some fd) (hf : f ∈ fd.forms) :
    form_index_val ik f ∈ entry_index_values ik res f2h entry_key d := by
  unfold entry_index_values
  rw [mem_isort, mem_dedupL]
  apply List.mem_append.mpr
  right
  apply List.mem_flatMap.mpr
  refine ⟨(fk, entry_key), hmem, ?_⟩
  rw [if_pos rfl, hfd]
  exact List.mem_flatMap.mpr ⟨f, hf, form_index_val_mem_values ik f⟩

/-! ## First occurrences of ungrouped signatures -/

theorem pipeline_readlex_firstOcc (dt : DictType) (dialect : String) (cache : WordnetCache)
    (translit_defs : List (String × TransDef)) (wn_defs : List (String × List DefEntry))
    (readlex_data : List (String × ReadlexData))
    (hN : (readlex_data.map Prod.fst).Nodup) {t : Trip}
    (ht : t ∈ pipeline_trips dt dialect cache translit_defs wn_defs readlex_data)
    (hsig : t.sig = .readlex t.key) :
    isFirstOcc (pipeline_trips dt dialect cache translit_defs wn_defs readlex_data) t = true ∧
    groupForms (pipeline_trips dt dialect cache translit_defs wn_defs readlex_data) t.sig =
      t.data.forms := by
  have hkeys : ((pipeline_trips dt dialect cache translit_defs wn_defs readlex_data).map
      Trip.key).Nodup := by
    rw [pipeline_trips_keys]
    exact hN
  have hall : ∀ u ∈ pipeline_trips dt dialect cache translit_defs wn_defs readlex_data,
      u.sig = t.sig → u = t := by
    intro u hu he
    have hu2 := pipeline_trips_sig dt dialect cache translit_defs wn_defs readlex_data u hu
    rw [hsig] at he
    have hk : t.key = u.key := sig_of_key_readlex_inj (hu2 ▸ he)
    exact trips_inj_of_nodup hkeys hu ht hk.symm
  have hfw : firstWithSig (pipeline_trips dt dialect cache translit_defs wn_defs readlex_data)
      t.sig = some t := by
    cases hfw2 : firstWithSig (pipeline_trips dt dialect cache translit_defs wn_defs
        readlex_data) t.sig with
    | none =>
      exact absurd rfl (firstWithSig_eq_none.mp hfw2 t ht)
    | some u =>
      rw [hall u (firstWithSig_mem hfw2) (firstWithSig_sig hfw2)]
  constructor
  · unfold isFirstOcc nonForeign
    rw [hsig] at hfw ⊢
    rw [hfw]
    simp [Sig.isForeign]
  · unfold groupForms
    have hfilter : (pipeline_trips dt dialect cache translit_defs wn_defs
        readlex_data).filter (fun u => decide (u.sig = t.sig)) = [t] := by
      apply all_eq_nodup_singleton
      · exact List.Nodup.sublist (List.filter_sublist _) (hkeys.of_map)
      · exact List.mem_filter.mpr ⟨ht, by simp⟩
      · intro u hu
        rcases List.mem_filter.mp hu with ⟨hu1, hu2⟩
        exact hall u hu1 (of_decide_eq_true hu2)
    rw [hfilter]
    simp

/-! ## Concrete builds used as counterexamples and witnesses -/

/-- A cache with one synset for `color`, no dialect variants. -/
def exCacheSyn : WordnetCache :=
  [("color", ⟨[("n", ⟨[⟨some "syn1", [], []⟩]⟩)], none⟩)]

/-- Readlex data for `color`, canonical Shavian `X`. -/
def exDataX : ReadlexData := ⟨"color", "X", [⟨"X", "color", "NN1", "i", "RRP"⟩]⟩

/-- Readlex data for `colors`, canonical Shavian `Y`, same lemma. -/
def exDataY : ReadlexData := ⟨"color", "Y", [⟨"Y", "colors", "NN2", "i", "RRP"⟩]⟩

/-- A cache where `color` is the US spelling of synset `syn1` and
`colour` the GB one. -/
def exCacheDial : WordnetCache :=
  [("color", ⟨[("n", ⟨[⟨some "syn1", [("GB", ["colour"])], []⟩]⟩)], none⟩),
   ("colour", ⟨[("n", ⟨[⟨some "syn1", [("GB", ["colour"])], []⟩]⟩)], none⟩)]

/-- Readlex data for the foreign (US) spelling `color`. -/
def exDataF : ReadlexData := ⟨"color", "CX", [⟨"CX", "color", "NN1", "i", "RRP"⟩]⟩

/-- Readlex data for the home (GB) spelling `colour`. -/
def exDataH : ReadlexData := ⟨"colour", "CU", [⟨"CU", "colour", "NN1", "i", "RRP"⟩]⟩

/-- Foreign key first, home key second. -/
def exBuildFH : BuildResult :=
  generate_dictionary .shawShaw "gb" exCacheDial [] []
    [("color_n", exDataF), ("colour_n", exDataH)]

/-- Home key first, foreign key second. -/
def exBuildHF : BuildResult :=
  generate_dictionary .shawShaw "gb" exCacheDial [] []
    [("colour_n", exDataH), ("color_n", exDataF)]

/-- Two keys with the same signature and identical records. -/
def exBuildDup : BuildResult :=
  generate_dictionary .shawShaw "gb" exCacheSyn [] []
    [("color_1", exDataX), ("color_2", exDataX)]

/-- Two foreign keys sharing one foreign signature, no home key. -/
def exBuildFF : BuildResult :=
  generate_dictionary .shawShaw "gb" exCacheDial [] []
    [("color_1", exDataF), ("color_2", exDataF)]

/-- Two differently-spelled keys with one signature, in both orders. -/
def exBuildXY : BuildResult :=
  generate_dictionary .shawShaw "gb" exCacheSyn [] []
    [("color_1", exDataX), ("color_2", exDataY)]

/-- The reversed ordering of `exBuildXY`'s input. -/
def exBuildYX : BuildResult :=
  generate_dictionary .shawShaw "gb" exCacheSyn [] []
    [("color_2", exDataY), ("color_1", exDataX)]

/-- A `shaw-eng` build with no WordNet cache but lemma-level definitions
supplied. -/
def exBuildDefs : BuildResult :=
  generate_dictionary .shawEng "gb" [] [] [("go", [⟨"move", "v", []⟩])]
    [("go_v", ⟨"go", "G", [⟨"G", "go", "VVB", "i", "RRP"⟩]⟩)]

/-- A cache whose home-dialect spelling list for sense `s1` exists but is
empty. -/
def exCacheEmptyHome : WordnetCache :=
  [("w", ⟨[("n", ⟨[⟨some "s1", [("GB", [])], []⟩]⟩)], none⟩)]

/-- The record of the foreign key `color_n`, as built by the pipeline. -/
def exFormCX : Form := ⟨"CX", "color", "NN1", "i", "RRP", none, true, true⟩

/-- The lemma record of `color_1`, as built by the pipeline. -/
def exFormX : Form := ⟨"X", "color", "NN1", "i", "RRP", none, true, true⟩

/-- Claim-side classification, modelled from the spec sentence: the
identified sense lists at least one spelling for the home dialect and
the lemma is not among them. -/
def claim_foreign_classification (lemm synset_id home_dialect : String)
    (cache : WordnetCache) : Bool :=
  match alookup cache (strLower lemm) with
  | none => false
  | some e =>
    e.pos_entries.any fun pd =>
      pd.2.sense_variants.any fun s =>
        decide (s.synset = some synset_id) &&
          (match alookup s.variants home_dialect with
           | some hv => !hv.isEmpty && !(hv.contains (strLower lemm))
           | none => false)

/-! ## Counterexample theorems -/

/-- C1, counterexample: in `exBuildFH` the foreign key `color_n` precedes
the home key `colour_n`; a `BySense` entry with the same sense identifier
exists in the build, yet no cross-reference is recorded and the foreign
spelling does not appear among the home entry's index values. -/
theorem c1_counterexample :
    exBuildFH.sigs = [("color_n", Sig.foreign "color" "syn1"),
                      ("colour_n", Sig.synset "colour" "syn1")] ∧
    (alookup exBuildFH.merged "colour_n").isSome = true ∧
    exBuildFH.foreign_to_home = [] ∧
    "CX" ∉ entry_index_values IndexKey.shaw exBuildFH.readlex_entries
      exBuildFH.foreign_to_home "colour_n"
      ((alookup exBuildFH.merged "colour_n").getD ⟨[], [], ""⟩) := by
  refine ⟨by decide, by decide, by decide, by decide⟩

/-- C2, counterexample: in `exBuildHF` the record of the foreign key
`color_n` is one of the input records but is contained in no
consolidated entry. -/
theorem c2_counterexample :
    (alookup exBuildHF.readlex_entries "color_n").map (fun d => d.forms) = some [exFormCX] ∧
    exBuildHF.merged.all (fun kd => !(kd.2.forms.contains exFormCX)) = true := by
  refine ⟨by decide, by decide⟩

/-- C3, counterexample: in `exBuildDup` two merged raw keys carry an
identical record, and the resulting entry holds it twice — two members
share spelling, POS tag, transcription and variant code. -/
theorem c3_counterexample :
    (alookup exBuildDup.merged "color_1").map (fun d => d.forms) =
      some [exFormX, exFormX] ∧
    ¬ (((alookup exBuildDup.merged "color_1").getD ⟨[], [], ""⟩).forms.Pairwise
        fun f1 f2 => ¬(f1.shaw = f2.shaw ∧ f1.pos = f2.pos ∧ f1.ipa = f2.ipa ∧
          f1.var = f2.var)) := by
  refine ⟨by decide, by decide⟩

/-- C4, counterexample: in `exBuildFF` the two raw keys carry equal
(`Foreign`) signatures, yet their records end up in no consolidated
entry at all, so they do not end up in one common entry. -/
theorem c4_counterexample :
    exBuildFF.sigs = [("color_1", Sig.foreign "color" "syn1"),
                      ("color_2", Sig.foreign "color" "syn1")] ∧
    exBuildFF.merged = [] ∧
    exBuildFF.variant_map = [] := by
  refine ⟨by decide, by decide, by decide⟩

/-- C5, counterexample: the inputs of `exBuildXY` and `exBuildYX` are
permutations of one another, yet the merge produces different
consolidated entries. -/
theorem c5_counterexample :
    ([("color_1", exDataX), ("color_2", exDataY)] : List (String × ReadlexData)).Perm
      [("color_2", exDataY), ("color_1", exDataX)] ∧
    exBuildXY.merged ≠ exBuildYX.merged := by
  constructor
  · exact List.Perm.swap _ _ _
  · decide

/-- C6, counterexample: with an empty home-dialect spelling list the code
classifies the lemma as foreign although the claim (at least one home
spelling listed) classifies it as home. -/
theorem c6_counterexample :
    is_foreign_dialect_lemma "w" "s1" "GB" exCacheEmptyHome = true ∧
    claim_foreign_classification "w" "s1" "GB" exCacheEmptyHome = false := by
  refine ⟨by decide, by decide⟩

/-- C8, counterexample: in `exBuildXY` the index term `Y` is emitted for
the entry canonical for `color_1`, whose canonical lemma spelling is `X`;
a term is emitted for a merged-in form whose spelling differs from the
entry's canonical spelling. -/
theorem c8_counterexample :
    exBuildXY.index = [("X", ["color_1"]), ("Y", ["color_1"])] ∧
    (alookup exBuildXY.merged "color_1").map (fun d => d.canonical_shavian) = some "X" ∧
    ("Y" : String) ≠ "X" := by
  refine ⟨by decide, by decide, by decide⟩

/-- C10, counterexample: in `exBuildDefs` there is no sense data at all
(the cache is empty), the key falls back to an Ungrouped signature, an
entry is produced — but its definition list is not empty: the lemma-level
definition lookup of the `shaw-eng` configuration still attaches a
definition. -/
theorem c10_counterexample :
    exBuildDefs.sigs = [("go_v", Sig.readlex "go_v")] ∧
    (alookup exBuildDefs.merged "go_v").map (fun d => d.definitions) =
      some [⟨"move", "v", []⟩] ∧
    ([⟨"move", "v", []⟩] : List DefEntry) ≠ [] := by
  refine ⟨by decide, by decide, by decide⟩

/-! ## Field projections of a build -/

theorem generate_merged (dt : DictType) (dialect : String) (cache : WordnetCache)
    (tds : List (String × TransDef)) (wds : List (String × List DefEntry))
    (rd : List (String × ReadlexData)) :
    (generate_dictionary dt dialect cache tds wds rd).merged =
      (pipeline_state dt dialect cache tds wds rd).merged := rfl

theorem generate_variant_map (dt : DictType) (dialect : String) (cache : WordnetCache)
    (tds : List (String × TransDef)) (wds : List (String × List DefEntry))
    (rd : List (String × ReadlexData)) :
    (generate_dictionary dt dialect cache tds wds rd).variant_map =
      (pipeline_state dt dialect cache tds wds rd).variant_map := rfl

theorem generate_s2k (dt : DictType) (dialect : String) (cache : WordnetCache)
    (tds : List (String × TransDef)) (wds : List (String × List DefEntry))
    (rd : List (String × ReadlexData)) :
    (generate_dictionary dt dialect cache tds wds rd).signature_to_key =
      (pipeline_state dt dialect cache tds wds rd).signature_to_key := rfl

theorem generate_f2h (dt : DictType) (dialect : String) (cache : WordnetCache)
    (tds : List (String × TransDef)) (wds : List (String × List DefEntry))
    (rd : List (String × ReadlexData)) :
    (generate_dictionary dt dialect cache tds wds rd).foreign_to_home =
      (pipeline_state dt dialect cache tds wds rd).foreign_to_home := rfl

theorem generate_trips (dt : DictType) (dialect : String) (cache : WordnetCache)
    (tds : List (String × TransDef)) (wds : List (String × List DefEntry))
    (rd : List (String × ReadlexData)) :
    (generate_dictionary dt dialect cache tds wds rd).trips =
      pipeline_trips dt dialect cache tds wds rd := rfl

theorem generate_sigs (dt : DictType) (dialect : String) (cache : WordnetCache)
    (tds : List (String × TransDef)) (wds : List (String × List DefEntry))
    (rd : List (String × ReadlexData)) :
    (generate_dictionary dt dialect cache tds wds rd).sigs =
      pipeline_sigs dt dialect cache tds wds rd := rfl

theorem generate_readlex_entries (dt : DictType) (dialect : String) (cache : WordnetCache)
    (tds : List (String × TransDef)) (wds : List (String × List DefEntry))
    (rd : List (String × ReadlexData)) :
    (generate_dictionary dt dialect cache tds wds rd).readlex_entries =
      pipeline_entries dt dialect cache tds wds rd := rfl

/-! ## Claim theorems -/

/-- C2 (amended): the records of the consolidated entries are, as a
multiset, exactly the records of the raw keys with non-`Foreign`
signatures: every such record occurrence lands in exactly one entry,
while the records of `Foreign`-signed raw keys are contained in no
entry. -/
theorem c2_partition (dt : DictType) (dialect : String) (cache : WordnetCache)
    (tds : List (String × TransDef)) (wds : List (String × List DefEntry))
    (rd : List (String × ReadlexData)) :
    (flatForms (generate_dictionary dt dialect cache tds wds rd).merged).Perm
      (((generate_dictionary dt dialect cache tds wds rd).trips.filter nonForeign).flatMap
        fun t => t.data.forms) := by
  rw [generate_merged, generate_trips]
  have hB : SigKeysBound initState := by
    intro p hp
    simp [initState] at hp
  have h := mergeRun_flat_perm (pipeline_sigs dt dialect cache tds wds rd)
    (pipeline_trips dt dialect cache tds wds rd) initState hB
  simpa [initState, flatForms] using h

/-- C3 (amended): every consolidated entry is canonical for the first
raw key observed with its signature; its form list is the in-order
concatenation of the form lists of all raw keys carrying that signature,
with no deduplication, and its definitions and canonical spelling come
from the canonical raw key alone. -/
theorem c3_forms_concat (dt : DictType) (dialect : String) (cache : WordnetCache)
    (tds : List (String × TransDef)) (wds : List (String × List DefEntry))
    (rd : List (String × ReadlexData)) (hN : (rd.map Prod.fst).Nodup) :
    ∀ p ∈ (generate_dictionary dt dialect cache tds wds rd).merged,
      ∃ t ∈ (generate_dictionary dt dialect cache tds wds rd).trips,
        isFirstOcc (generate_dictionary dt dialect cache tds wds rd).trips t = true ∧
        p.1 = t.key ∧
        p.2.forms = groupForms (generate_dictionary dt dialect cache tds wds rd).trips t.sig ∧
        p.2.definitions = t.data.definitions ∧
        p.2.canonical_shavian = t.data.canonical_shavian := by
  intro p hp
  rw [generate_merged, (pipeline_struct dt dialect cache tds wds rd hN).2.2] at hp
  rcases mem_mergedSpec_iff.mp hp with ⟨t, ht, hfo, rfl⟩
  rw [generate_trips]
  exact ⟨t, ht, hfo, rfl, rfl, rfl, rfl⟩

/-- C3 witness. -/
theorem c3_witness :
    (([("color_1", exDataX), ("color_2", exDataX)].map Prod.fst).Nodup ∧
      ∃ t ∈ exBuildDup.trips,
        isFirstOcc exBuildDup.trips t = true ∧
        ("color_1", (⟨[exFormX, exFormX], [], "X"⟩ : EntryData)).1 = t.key ∧
        (⟨[exFormX, exFormX], [], "X"⟩ : EntryData).forms =
          groupForms exBuildDup.trips t.sig ∧
        (⟨[exFormX, exFormX], [], "X"⟩ : EntryData).definitions = t.data.definitions ∧
        (⟨[exFormX, exFormX], [], "X"⟩ : EntryData).canonical_shavian =
          t.data.canonical_shavian) :=
  ⟨by decide,
    c3_forms_concat .shawShaw "gb" exCacheSyn [] []
      [("color_1", exDataX), ("color_2", exDataX)] (by decide)
      ("color_1", ⟨[exFormX, exFormX], [], "X"⟩) (by decide)⟩

/-- C5 (amended): the merge pass processes the raw keys in the input
collection's order with no preceding sort; the first raw key observed
with a signature becomes its canonical key, as `signature_to_key` and
`variant_map` witness, so the output may depend on the collection
ordering (the counterexample exhibits two orderings with different
results). -/
theorem c5_first_wins (dt : DictType) (dialect : String) (cache : WordnetCache)
    (tds : List (String × TransDef)) (wds : List (String × List DefEntry))
    (rd : List (String × ReadlexData)) (hN : (rd.map Prod.fst).Nodup) :
    (generate_dictionary dt dialect cache tds wds rd).signature_to_key =
      sig2keySpec (generate_dictionary dt dialect cache tds wds rd).trips ∧
    (generate_dictionary dt dialect cache tds wds rd).variant_map =
      variantMapSpec (generate_dictionary dt dialect cache tds wds rd).trips := by
  rw [generate_s2k, generate_variant_map, generate_trips]
  exact ⟨(pipeline_struct dt dialect cache tds wds rd hN).1,
    (pipeline_struct dt dialect cache tds wds rd hN).2.1⟩

/-- C5 witness. -/
theorem c5_witness :
    (([("color_1", exDataX), ("color_2", exDataY)].map Prod.fst).Nodup ∧
      exBuildXY.signature_to_key = sig2keySpec exBuildXY.trips) :=
  ⟨by decide,
    (c5_first_wins .shawShaw "gb" exCacheSyn [] []
      [("color_1", exDataX), ("color_2", exDataY)] (by decide)).1⟩

/-- C6 (amended): the classifier marks a lemma foreign exactly when the
cache is non-empty, the sense identifier non-empty, and some sense of
the lowercased lemma's cache entry with the given synset has the home
dialect among its `variants` keys (possibly with an empty spelling list)
with the lowercased lemma not among those spellings; otherwise home. -/
theorem c6_classifier (lemm synset_id home_dialect : String) (cache : WordnetCache) :
    is_foreign_dialect_lemma lemm synset_id home_dialect cache = true ↔
      (cache.isEmpty = false ∧ synset_id ≠ "" ∧
       ∃ e, alookup cache (strLower lemm) = some e ∧
         ∃ pd ∈ e.pos_entries, ∃ s ∈ pd.2.sense_variants,
           s.synset = some synset_id ∧
           ∃ hv, alookup s.variants home_dialect = some hv ∧ strLower lemm ∉ hv) :=
  is_foreign_dialect_lemma_iff lemm synset_id home_dialect cache

/-- C1 (amended): a `Foreign`-signed raw key never becomes a standalone
consolidated entry; every recorded cross-reference points from a
`Foreign`-signed key to the canonical key of a `BySense` (synset)
signature with the same sense identifier, which names an existing entry,
and the foreign key's form spellings then appear among that home entry's
index values.  A cross-reference is recorded only when the home entry
already exists at the time the foreign key is processed; otherwise the
foreign key is dropped with no entry and no cross-reference (the
counterexample shows the home entry appearing later in the pass order
being missed). -/
theorem c1_foreign_resolution (dt : DictType) (dialect : String) (cache : WordnetCache)
    (tds : List (String × TransDef)) (wds : List (String × List DefEntry))
    (rd : List (String × ReadlexData)) (hN : (rd.map Prod.fst).Nodup) :
    (∀ t ∈ (generate_dictionary dt dialect cache tds wds rd).trips,
      t.sig.isForeign = true →
      t.key ∉ (generate_dictionary dt dialect cache tds wds rd).merged.map Prod.fst) ∧
    (∀ p ∈ (generate_dictionary dt dialect cache tds wds rd).foreign_to_home,
      ∃ lem sid lem2,
        (p.1, Sig.foreign lem sid) ∈ (generate_dictionary dt dialect cache tds wds rd).sigs ∧
        (Sig.synset lem2 sid, p.2) ∈
          (generate_dictionary dt dialect cache tds wds rd).signature_to_key ∧
        p.2 ∈ (generate_dictionary dt dialect cache tds wds rd).merged.map Prod.fst) ∧
    (∀ ik : IndexKey, ∀ p ∈ (generate_dictionary dt dialect cache tds wds rd).foreign_to_home,
      ∀ fd, alookup (generate_dictionary dt dialect cache tds wds rd).readlex_entries p.1 =
        some fd →
      ∀ f ∈ fd.forms, ∀ d : EntryData,
        form_index_val ik f ∈ entry_index_values ik
          (generate_dictionary dt dialect cache tds wds rd).readlex_entries
          (generate_dictionary dt dialect cache tds wds rd).foreign_to_home p.2 d) := by
  have hkeys : ((pipeline_trips dt dialect cache tds wds rd).map Trip.key).Nodup := by
    rw [pipeline_trips_keys]
    exact hN
  refine ⟨?_, ?_, ?_⟩
  · intro t ht hf hmem
    rw [generate_trips] at ht
    rw [generate_merged, (pipeline_struct dt dialect cache tds wds rd hN).2.2] at hmem
    rcases List.mem_map.mp hmem with ⟨p, hp, hpk⟩
    rcases mem_mergedSpec_iff.mp hp with ⟨w, hw, hwfo, rfl⟩
    have hwk : w.key = t.key := hpk
    have hwt : w = t := trips_inj_of_nodup hkeys hw ht hwk
    have hnf : nonForeign w = true := (bandElim hwfo).1
    unfold nonForeign at hnf
    rw [hwt, hf] at hnf
    exact Bool.noConfusion hnf
  · intro p hp
    rw [generate_f2h] at hp
    have hB : SigKeysBound initState := by
      intro q hq
      simp [initState] at hq
    have hG0 : ∀ q ∈ initState.foreign_to_home,
        GoodXref (pipeline_sigs dt dialect cache tds wds rd) initState q := by
      intro q hq
      simp [initState] at hq
    have h := mergeRun_xref (pipeline_sigs dt dialect cache tds wds rd)
      (pipeline_trips dt dialect cache tds wds rd) initState hB hG0
      (pipeline_sigs_of_trip dt dialect cache tds wds rd) p hp
    rcases h with ⟨lem, sid, lem2, h1, h2, h3⟩
    rw [generate_sigs, generate_s2k, generate_merged]
    exact ⟨lem, sid, lem2, h1, h2, h3⟩
  · intro ik p hp fd hfd f hf d
    obtain ⟨fk, hk⟩ := p
    exact mem_entry_index_values_foreign hp hfd hf

/-- C1 witness. -/
theorem c1_witness :
    (([("colour_n", exDataH), ("color_n", exDataF)].map Prod.fst).Nodup ∧
      ∃ lem sid lem2,
        (("color_n", "colour_n").1, Sig.foreign lem sid) ∈ exBuildHF.sigs ∧
        (Sig.synset lem2 sid, ("color_n", "colour_n").2) ∈ exBuildHF.signature_to_key ∧
        ("color_n", "colour_n").2 ∈ exBuildHF.merged.map Prod.fst) :=
  ⟨by decide,
    (c1_foreign_resolution .shawShaw "gb" exCacheDial [] []
      [("colour_n", exDataH), ("color_n", exDataF)] (by decide)).2.1
      ("color_n", "colour_n") (by decide)⟩

/-- C4 (amended): among raw keys with non-`Foreign` signatures, two keys
carry equal signatures exactly when `variant_map` sends them to the same
canonical entry; `Foreign`-signed keys take part in no entry at all (the
counterexample exhibits two equal `Foreign` signatures with no shared
entry). -/
theorem c4_signature_equivalence (dt : DictType) (dialect : String) (cache : WordnetCache)
    (tds : List (String × TransDef)) (wds : List (String × List DefEntry))
    (rd : List (String × ReadlexData)) (hN : (rd.map Prod.fst).Nodup) :
    ∀ t1 ∈ (generate_dictionary dt dialect cache tds wds rd).trips,
    ∀ t2 ∈ (generate_dictionary dt dialect cache tds wds rd).trips,
      nonForeign t1 = true → nonForeign t2 = true →
      (t1.sig = t2.sig ↔
        alookup (generate_dictionary dt dialect cache tds wds rd).variant_map t1.key =
        alookup (generate_dictionary dt dialect cache tds wds rd).variant_map t2.key) := by
  intro t1 ht1 t2 ht2 hnf1 hnf2
  rw [generate_trips] at ht1 ht2
  rw [generate_variant_map, (pipeline_struct dt dialect cache tds wds rd hN).2.1]
  have hkeys : ((pipeline_trips dt dialect cache tds wds rd).map Trip.key).Nodup := by
    rw [pipeline_trips_keys]
    exact hN
  rw [alookup_variantMapSpec_mem hkeys ht1 hnf1, alookup_variantMapSpec_mem hkeys ht2 hnf2]
  constructor
  · intro he
    rw [he]
  · intro he
    rcases firstWithSig_isSome_of_mem ht1 with ⟨u1, hu1⟩
    rcases firstWithSig_isSome_of_mem ht2 with ⟨u2, hu2⟩
    have he2 : u1.key = u2.key := by
      have h1 : canonKeyOf (pipeline_trips dt dialect cache tds wds rd) t1.sig = some u1.key := by
        unfold canonKeyOf
        rw [hu1]
        rfl
      have h2 : canonKeyOf (pipeline_trips dt dialect cache tds wds rd) t2.sig = some u2.key := by
        unfold canonKeyOf
        rw [hu2]
        rfl
      have := Option.some.inj he
      rw [h1, h2] at this
      simpa using this
    have hu12 : u1 = u2 := trips_inj_of_nodup hkeys (firstWithSig_mem hu1)
      (firstWithSig_mem hu2) he2
    rw [← firstWithSig_sig hu1, ← firstWithSig_sig hu2, hu12]

/-- C4 witness. -/
theorem c4_witness :
    (([("color_1", exDataX), ("color_2", exDataY)].map Prod.fst).Nodup ∧
      ((⟨"color_1", ⟨[exFormX], [], "X"⟩, Sig.synset "color" "syn1"⟩ : Trip).sig =
          (⟨"color_2", ⟨[⟨"Y", "colors", "NN2", "i", "RRP", none, true, true⟩], [], "Y"⟩,
            Sig.synset "color" "syn1"⟩ : Trip).sig ↔
        alookup exBuildXY.variant_map "color_1" = alookup exBuildXY.variant_map "color_2")) :=
  ⟨by decide,
    c4_signature_equivalence .shawShaw "gb" exCacheSyn [] []
      [("color_1", exDataX), ("color_2", exDataY)] (by decide)
      ⟨"color_1", ⟨[exFormX], [], "X"⟩, Sig.synset "color" "syn1"⟩ (by decide)
      ⟨"color_2", ⟨[⟨"Y", "colors", "NN2", "i", "RRP", none, true, true⟩], [], "Y"⟩,
        Sig.synset "color" "syn1"⟩ (by decide)
      (by decide) (by decide)⟩

/-- C7: the signature pass derives the coarse POS set from tag prefixes;
the canonical POS is the lexicographically smallest code present (the
head of the sorted tuple); the grouping sense is the first sense
identifier returned for the key's lemma and canonical POS; when no sense
identifier is found, the signature is `Ungrouped` on the raw key itself,
so it never coincides with another key's signature. -/
theorem c7_signature_assigner :
    (∀ (forms : List Form) (m : String) (rest : List String),
      entry_pos_tuple forms = m :: rest →
      m ∈ forms.filterMap (fun f => coarse_pos f.pos) ∧
      ∀ c ∈ forms.filterMap (fun f => coarse_pos f.pos), strLe m c = true) ∧
    (∀ (cache : WordnetCache) (key : String) (d : EntryData) (m : String)
        (rest : List String),
      cache.isEmpty = false → entry_pos_tuple d.forms = m :: rest →
      sig_synsets cache key d = get_synsets_from_cache (keyHead key) m cache) ∧
    (∀ (hd : String) (cache : WordnetCache) (key : String) (d : EntryData),
      sig_synsets cache key d = [] → sig_of_key hd cache key d = .readlex key) ∧
    (∀ (hd : String) (cache : WordnetCache) (key : String) (d : EntryData)
        (sid : String) (rest : List String), sig_synsets cache key d = sid :: rest →
      (is_foreign_dialect_lemma (keyHead key) sid hd cache = false →
        sig_of_key hd cache key d = .synset (keyHead key) sid) ∧
      (is_foreign_dialect_lemma (keyHead key) sid hd cache = true →
        sig_of_key hd cache key d = .foreign (keyHead key) sid)) ∧
    (∀ (hd : String) (cache : WordnetCache) (k1 k2 : String) (d1 d2 : EntryData),
      sig_of_key hd cache k1 d1 = .readlex k1 →
      sig_of_key hd cache k2 d2 = sig_of_key hd cache k1 d1 → k2 = k1) := by
  refine ⟨?_, ?_, ?_, ?_, ?_⟩
  · intro forms m rest h
    have htr : ∀ a b c : String, strLe a b = true → strLe b c = true → strLe a c = true :=
      fun a b c h1 h2 => strLe_trans h1 h2
    have hmem : m ∈ isort strLe (dedupL (forms.filterMap fun f => coarse_pos f.pos)) := by
      unfold entry_pos_tuple at h
      rw [h]
      exact List.mem_cons_self _ _
    have hmem2 : m ∈ forms.filterMap (fun f => coarse_pos f.pos) :=
      mem_dedupL.mp (mem_isort.mp hmem)
    refine ⟨hmem2, ?_⟩
    intro c hc
    exact isort_head_min htr strLe_total h c (mem_dedupL.mpr hc)
  · intro cache key d m rest h1 h2
    unfold sig_synsets entry_pos_tuple
    unfold entry_pos_tuple at h2
    rw [h2, h1]
    simp
  · intro hd cache key d h
    exact sig_of_key_readlex h
  · intro hd cache key d sid rest h
    constructor
    · intro hf
      rw [sig_of_key_cons h, if_neg (by rw [hf]; exact Bool.noConfusion)]
    · intro hf
      rw [sig_of_key_cons h, if_pos hf]
  · intro hd cache k1 k2 d1 d2 h1 h2
    rw [h1] at h2
    exact (sig_of_key_readlex_inj h2).symm

/-- C7 witness. -/
theorem c7_witness :
    (sig_synsets ([] : WordnetCache) "k" ⟨[], [], ""⟩ = [] ∧
      sig_of_key "GB" ([] : WordnetCache) "k" ⟨[], [], ""⟩ = .readlex "k") :=
  ⟨by decide, c7_signature_assigner.2.2.1 "GB" [] "k" ⟨[], [], ""⟩ (by decide)⟩

/-- C8 (amended): in the target-script (Shavian) projection, an entry is
collected into the bucket of a term exactly when one of its member forms
is lemma-flagged — its spelling equals the canonical spelling of the raw
key that contributed it — with that spelling; after merging this may
differ from the entry's own canonical spelling (counterexample).  In the
source-script projection an entry is in the bucket of exactly the
lowercased Latin spelling of its first lemma-flagged form. -/
theorem c8_projection (dt : DictType) (dialect : String) (cache : WordnetCache)
    (tds : List (String × TransDef)) (wds : List (String × List DefEntry))
    (rd : List (String × ReadlexData)) (hN : (rd.map Prod.fst).Nodup) :
    ∀ (t k : String),
    (k ∈ bucketOf (buildIndex IndexKey.shaw
        (generate_dictionary dt dialect cache tds wds rd).variant_map
        (generate_dictionary dt dialect cache tds wds rd).merged) t ↔
      ∃ p ∈ (generate_dictionary dt dialect cache tds wds rd).merged,
        p.1 = k ∧ ∃ f ∈ p.2.forms, f.is_lemma = true ∧ f.shaw = t) ∧
    (k ∈ bucketOf (buildIndex IndexKey.latn
        (generate_dictionary dt dialect cache tds wds rd).variant_map
        (generate_dictionary dt dialect cache tds wds rd).merged) t ↔
      ∃ p ∈ (generate_dictionary dt dialect cache tds wds rd).merged,
        p.1 = k ∧ ∃ f, (p.2.forms.filter (fun g => g.is_lemma)).head? = some f ∧
          t = strLower f.latn) := by
  intro t k
  have hkeys : ((pipeline_trips dt dialect cache tds wds rd).map Trip.key).Nodup := by
    rw [pipeline_trips_keys]
    exact hN
  have hself : ∀ p ∈ (generate_dictionary dt dialect cache tds wds rd).merged,
      alookup (generate_dictionary dt dialect cache tds wds rd).variant_map p.1 =
        some p.1 := by
    intro p hp
    rw [generate_merged, (pipeline_struct dt dialect cache tds wds rd hN).2.2] at hp
    rw [generate_variant_map, (pipeline_struct dt dialect cache tds wds rd hN).2.1]
    exact mergedSpec_variant_self hkeys hp
  constructor
  · rw [mem_bucketOf_buildIndex]
    constructor
    · rintro ⟨kd, hm, _, hk, ht⟩
      rcases mem_entryTerms_shaw.mp ht with ⟨f, hf1, hf2, hf3⟩
      exact ⟨kd, hm, hk, f, hf1, hf2, hf3⟩
    · rintro ⟨p, hm, hk, f, hf1, hf2, hf3⟩
      exact ⟨p, hm, hself p hm, hk, mem_entryTerms_shaw.mpr ⟨f, hf1, hf2, hf3⟩⟩
  · rw [mem_bucketOf_buildIndex]
    constructor
    · rintro ⟨kd, hm, _, hk, ht⟩
      rcases mem_entryTerms_latn.mp ht with ⟨f, hf1, hf2⟩
      exact ⟨kd, hm, hk, f, hf1, hf2⟩
    · rintro ⟨p, hm, hk, f, hf1, hf2⟩
      exact ⟨p, hm, hself p hm, hk, mem_entryTerms_latn.mpr ⟨f, hf1, hf2⟩⟩

/-- C8 witness. -/
theorem c8_witness :
    (([("color_1", exDataX), ("color_2", exDataY)].map Prod.fst).Nodup ∧
      "color_1" ∈ bucketOf (buildIndex IndexKey.shaw exBuildXY.variant_map
        exBuildXY.merged) "Y") :=
  ⟨by decide,
    ((c8_projection .shawShaw "gb" exCacheSyn [] []
      [("color_1", exDataX), ("color_2", exDataY)] (by decide) "Y" "color_1").1).mpr
      (by decide)⟩

/-- C9: every bucket of the projected index is the stable sort of its
raw bucket by the three-component key of `sort_entries`: the resulting
order is pairwise non-descending in (direct-match flag, lowercased lemma
spelling, POS string with `zzz` for empty POS), it is a permutation of
the raw bucket, and entries with equal keys keep their relative order
(stability), independent of any hash iteration order. -/
theorem c9_bucket_order :
    (∀ (ik : IndexKey) (vm : List (String × String)) (merged : List (String × EntryData))
        (ep : List (String × List String)) (p : String × List String),
      p ∈ project_index ik vm merged ep →
      ∃ b0, (p.1, b0) ∈ buildIndex ik vm merged ∧
        p.2 = sort_entries_bucket ik merged ep p.1 b0) ∧
    (∀ (ik : IndexKey) (merged : List (String × EntryData))
        (ep : List (String × List String)) (iw : String) (bucket : List String),
      (sort_entries_bucket ik merged ep iw bucket).Perm bucket) ∧
    (∀ (ik : IndexKey) (merged : List (String × EntryData))
        (ep : List (String × List String)) (iw : String) (bucket : List String),
      (sort_entries_bucket ik merged ep iw bucket).Pairwise fun k1 k2 =>
        sortKeyLE (sort_key_of ik merged ep iw k1) (sort_key_of ik merged ep iw k2) = true) ∧
    (∀ (ik : IndexKey) (merged : List (String × EntryData))
        (ep : List (String × List String)) (iw : String) (bucket : List String)
        (v : SortKey),
      (sort_entries_bucket ik merged ep iw bucket).filter
        (fun k2 => decide (sort_key_of ik merged ep iw k2 = v)) =
      bucket.filter (fun k2 => decide (sort_key_of ik merged ep iw k2 = v))) := by
  refine ⟨?_, ?_, ?_, ?_⟩
  · intro ik vm merged ep p hp
    unfold project_index at hp
    rcases List.mem_map.mp hp with ⟨q, hq, hqp⟩
    obtain ⟨t0, b0⟩ := q
    subst hqp
    exact ⟨b0, hq, rfl⟩
  · intro ik merged ep iw bucket
    exact isort_perm _ bucket
  · intro ik merged ep iw bucket
    unfold sort_entries_bucket
    apply pairwise_isort
    · intro a b c h1 h2
      exact sortKeyLE_trans h1 h2
    · intro a b
      exact sortKeyLE_total _ _
  · intro ik merged ep iw bucket v
    apply isort_filter_stable
    intro a b ha hb
    have ha2 : sort_key_of ik merged ep iw a = v := of_decide_eq_true ha
    have hb2 : sort_key_of ik merged ep iw b = v := of_decide_eq_true hb
    rw [ha2, hb2]
    exact sortKeyLE_refl v

/-- C9 witness. -/
theorem c9_witness :
    (("X", ["color_1"]) ∈ project_index IndexKey.shaw exBuildXY.variant_map
        exBuildXY.merged exBuildXY.entry_pos ∧
      ∃ b0, (("X", ["color_1"]).1, b0) ∈ buildIndex IndexKey.shaw exBuildXY.variant_map
          exBuildXY.merged ∧
        ("X", ["color_1"]).2 = sort_entries_bucket IndexKey.shaw exBuildXY.merged
          exBuildXY.entry_pos ("X", ["color_1"]).1 b0) :=
  ⟨by decide,
    c9_bucket_order.1 IndexKey.shaw exBuildXY.variant_map exBuildXY.merged
      exBuildXY.entry_pos ("X", ["color_1"]) (by decide)⟩

/-- C10 (amended): a raw key whose grouping sense lookup finds no sense
identifier is not an error: it falls back to an `Ungrouped` signature
and a consolidated entry is still produced for it, holding exactly the
key's own data; in the synset-keyed configurations its definition list
is empty whenever the definitions-pass sense lookup is also empty, but
definitions can still be attached through the lemma-level definition
lookup (counterexample). -/
theorem c10_fallback (dt : DictType) (dialect : String) (cache : WordnetCache)
    (tds : List (String × TransDef)) (wds : List (String × List DefEntry))
    (rd : List (String × ReadlexData)) (hN : (rd.map Prod.fst).Nodup) :
    ∀ (k : String) (data : ReadlexData), (k, data) ∈ rd →
    sig_synsets cache k
      (build_entry_data dt (preferred_var_of dialect) cache tds wds data) = [] →
    sig_of_key (home_dialect_of (preferred_var_of dialect)) cache k
      (build_entry_data dt (preferred_var_of dialect) cache tds wds data) = .readlex k ∧
    alookup (generate_dictionary dt dialect cache tds wds rd).merged k =
      some (build_entry_data dt (preferred_var_of dialect) cache tds wds data) ∧
    (dt.use_shavian_cache = true → defs_synsets cache data = [] →
      (build_entry_data dt (preferred_var_of dialect) cache tds wds data).definitions = []) := by
  intro k data hmem hsyn
  have hsig := @sig_of_key_readlex (home_dialect_of (preferred_var_of dialect)) cache k _ hsyn
  refine ⟨hsig, ?_, ?_⟩
  · have hkeys : ((pipeline_trips dt dialect cache tds wds rd).map Trip.key).Nodup := by
      rw [pipeline_trips_keys]
      exact hN
    have ht := pipeline_trips_of_mem dt dialect cache tds wds rd hmem
    have hfo := pipeline_readlex_firstOcc dt dialect cache tds wds rd hN ht (by rw [hsig])
    rw [generate_merged, (pipeline_struct dt dialect cache tds wds rd hN).2.2]
    have hlk := alookup_mergedSpec_firstOcc hkeys hfo.1
    rw [hfo.2] at hlk
    exact hlk
  · intro hcache hds
    unfold build_entry_data defs_for_key
    rw [hcache]
    simp [hds]

/-- C10 witness. -/
theorem c10_witness :
    (sig_synsets ([] : WordnetCache) "go_v"
        (build_entry_data .shawShaw (preferred_var_of "gb") [] [] []
          ⟨"go", "G", [⟨"G", "go", "VVB", "i", "RRP"⟩]⟩) = [] ∧
      alookup (generate_dictionary .shawShaw "gb" [] [] []
          [("go_v", ⟨"go", "G", [⟨"G", "go", "VVB", "i", "RRP"⟩]⟩)]).merged "go_v" =
        some (build_entry_data .shawShaw (preferred_var_of "gb") [] [] []
          ⟨"go", "G", [⟨"G", "go", "VVB", "i", "RRP"⟩]⟩)) :=
  ⟨by decide,
    (c10_fallback .shawShaw "gb" [] [] []
      [("go_v", ⟨"go", "G", [⟨"G", "go", "VVB", "i", "RRP"⟩]⟩)] (by decide)
      "go_v" ⟨"go", "G", [⟨"G", "go", "VVB", "i", "RRP"⟩]⟩ (by decide) (by decide)).2.1⟩

end ShawSpell
